import Mathlib

/-!
Verification of the transcript-repair core of openclaw
(`session-transcript-repair.ts`): the tool-call input sanitizer
(`repairToolCallInputs` / `sanitizeToolCallInputs`), the tool-result pairing
repairer (`repairToolUseResultPairing`) and the tool-call textifier
(`textifyToolCallRounds`), together with their helpers
(`extractToolResultId`, `extractToolCallsFromAssistant`, `hasToolCallInput`,
`makeMissingToolResult`, `extractToolResultText`,
`truncateToolResultForTextify`).

The message model follows the source's `AgentMessage` shape: a message is a
user message (content: string or block list), an assistant message (content:
ordered block list, optional stop reason) or a tool-result message
(correlation ids, tool name, content, error flag, timestamp).  Content blocks
are text blocks, tool-invocation blocks (source type tags `toolCall`,
`toolUse`, `functionCall`) or other (passthrough) blocks.  JSON argument
payloads are modelled by their serialized form: `some s` stands for a present,
non-null JSON value whose compact serialization is `s`; `none` stands for an
absent or null payload.  `Date.now()` is modelled by an explicit `now : Nat`
parameter on the functions that call it.
-/

/-- The three source spellings of a tool-invocation block's `type` tag
(`TOOL_CALL_TYPES` in the source). -/
inductive ToolBlockKind where
  | toolCall
  | toolUse
  | functionCall
deriving DecidableEq

/-- A content block of an assistant (or tool-result) message.  `tool` blocks
carry the fields the source reads defensively: `id` and `name` may be absent
(`none`), and the arguments payload may sit under `input` or `args`
(`arguments` in the source), each possibly absent/null (`none`). -/
inductive Block where
  | text (txt : String)
  | tool (kind : ToolBlockKind) (id : Option String) (name : Option String)
      (input : Option String) (args : Option String)
  | other (tag : String)
deriving DecidableEq

/-- A tool-result message (`role: "toolResult"`).  `toolCallId` and the
fallback `toolUseId` model the source's two correlation-id spellings, with
`""` standing for an absent field.  Content is a raw string or a block list. -/
structure ToolResultMsg where
  toolCallId : String
  toolUseId : String
  toolName : String
  content : Sum String (List Block)
  isError : Bool
  timestamp : Nat
deriving DecidableEq

/-- A transcript message: user, assistant or tool-result. -/
inductive Message where
  | user (content : Sum String (List Block)) (timestamp : Nat)
  | assistant (content : List Block) (stopReason : Option String)
  | toolResult (r : ToolResultMsg)
deriving DecidableEq

def isAssistantRole : Message → Bool
  | .assistant _ _ => true
  | _ => false

def isToolResultRole : Message → Bool
  | .toolResult _ => true
  | _ => false

def isUserRole : Message → Bool
  | .user _ _ => true
  | _ => false

/-- `isToolCallBlock` from the source: the block's type tag is one of
`toolCall` / `toolUse` / `functionCall`. -/
def isToolCallBlock : Block → Bool
  | .tool _ _ _ _ _ => true
  | _ => false

/-- The `id` field of a block (only tool blocks carry one). -/
def blockId : Block → Option String
  | .tool _ i _ _ _ => i
  | _ => none

/-- The `input` field of a block. -/
def blockInput : Block → Option String
  | .tool _ _ _ inp _ => inp
  | _ => none

/-- The `arguments` field of a block. -/
def blockArgs : Block → Option String
  | .tool _ _ _ _ a => a
  | _ => none

/-- The `name` field of a block. -/
def blockName : Block → Option String
  | .tool _ _ n _ _ => n
  | _ => none

/-- `hasToolCallInput` from the source: the arguments payload is present and
non-null under `input` or `arguments`. -/
def hasToolCallInput (b : Block) : Bool :=
  (blockInput b).isSome || (blockArgs b).isSome

/-- `extractToolCallsFromAssistant` from the source: the ordered list of
`(id, name)` pairs of tool-invocation blocks whose `id` is a non-empty
string. -/
def extractToolCallsFromAssistant (content : List Block) :
    List (String × Option String) :=
  content.filterMap fun b =>
    match b with
    | .tool _ (some i) n _ _ => if i = "" then none else some (i, n)
    | _ => none

/-- `extractToolResultId` from the source: the correlation id of a
tool-result message, preferring `toolCallId` over `toolUseId`, non-empty
strings only. -/
def extractToolResultId (r : ToolResultMsg) : Option String :=
  if r.toolCallId ≠ "" then some r.toolCallId
  else if r.toolUseId ≠ "" then some r.toolUseId
  else none

/-- `makeMissingToolResult` from the source: the synthetic error tool-result
inserted for a missing result.  `now` models `Date.now()`. -/
def makeMissingToolResult (now : Nat) (toolCallId : String)
    (toolName : Option String) : ToolResultMsg :=
  { toolCallId := toolCallId
    toolUseId := ""
    toolName := toolName.getD "unknown"
    content := Sum.inr [Block.text "[openclaw] missing tool result in session history; inserted synthetic error result for transcript repair."]
    isError := true
    timestamp := now }

/-- Report type of `repairToolCallInputs`. -/
structure ToolCallInputRepairReport where
  messages : List Message
  droppedToolCalls : Nat
  droppedAssistantMessages : Nat
deriving DecidableEq

/-- A block the sanitizer drops: a tool-invocation block without an arguments
payload. -/
def isDroppableBlock (b : Block) : Bool :=
  isToolCallBlock b && !hasToolCallInput b

/-- The per-message scan of `repairToolCallInputs`: returns the rebuilt
output, the dropped tool-call count, the dropped assistant-message count and
the changed flag. -/
def sanitizeGo : List Message → List Message × Nat × Nat × Bool
  | [] => ([], 0, 0, false)
  | m :: rest =>
    let acc := sanitizeGo rest
    match m with
    | .assistant c stop =>
      let dropped := (c.filter isDroppableBlock).length
      let nextContent := c.filter fun b => !isDroppableBlock b
      if 0 < dropped then
        if nextContent.isEmpty then
          (acc.1, acc.2.1 + dropped, acc.2.2.1 + 1, true)
        else
          (.assistant nextContent stop :: acc.1, acc.2.1 + dropped, acc.2.2.1, true)
      else
        (m :: acc.1, acc.2.1, acc.2.2.1, acc.2.2.2)
    | _ => (m :: acc.1, acc.2.1, acc.2.2.1, acc.2.2.2)

/-- `repairToolCallInputs` from the source: drop tool-invocation blocks whose
arguments payload is absent; drop assistant messages emptied by that; return
the original list when nothing changed. -/
def repairToolCallInputs (messages : List Message) : ToolCallInputRepairReport :=
  let acc := sanitizeGo messages
  { messages := if acc.2.2.2 then acc.1 else messages
    droppedToolCalls := acc.2.1
    droppedAssistantMessages := acc.2.2.1 }

/-- `sanitizeToolCallInputs` from the source. -/
def sanitizeToolCallInputs (messages : List Message) : List Message :=
  (repairToolCallInputs messages).messages

/-- `TEXTIFY_MAX_RESULT_CHARS` from the source. -/
def TEXTIFY_MAX_RESULT_CHARS : Nat := 800

/-- `text.slice(0, n)` from the source, on characters. -/
def jsSlice (s : String) (n : Nat) : String :=
  String.mk (s.data.take n)

/-- `truncateToolResultForTextify` from the source: texts longer than 800
characters are cut at 800 characters and suffixed with the literal
truncation marker. -/
def truncateToolResultForTextify (text : String) : String :=
  if text.length ≤ TEXTIFY_MAX_RESULT_CHARS then text
  else jsSlice text TEXTIFY_MAX_RESULT_CHARS ++ "… (truncated)"

/-- `extractToolResultText` from the source: string content is truncated
directly; block content concatenates the text blocks with newlines, defaulting
to `(no content)` when empty, then truncates. -/
def extractToolResultText (r : ToolResultMsg) : String :=
  match r.content with
  | Sum.inl s => truncateToolResultForTextify s
  | Sum.inr blocks =>
    let texts := blocks.filterMap fun b =>
      match b with
      | .text t => some t
      | _ => none
    let joined := String.intercalate "\n" texts
    truncateToolResultForTextify (if joined = "" then "(no content)" else joined)

/-- The `toolResultById` index of `textifyToolCallRounds`: all tool-result
messages keyed by correlation id, first occurrence winning. -/
def buildIdxGo (acc : List (String × ToolResultMsg)) :
    List Message → List (String × ToolResultMsg)
  | [] => acc
  | .toolResult r :: rest =>
    match extractToolResultId r with
    | some i =>
      if (List.lookup i acc).isSome then buildIdxGo acc rest
      else buildIdxGo (acc ++ [(i, r)]) rest
    | none => buildIdxGo acc rest
  | _ :: rest => buildIdxGo acc rest

/-- A block the textifier treats as a tool call: a tool-invocation block whose
`id` field is a string (the source checks `typeof id === "string"`, allowing
the empty string). -/
def isTextifiableToolCall (b : Block) : Bool :=
  isToolCallBlock b && (blockId b).isSome

/-- The per-invocation loop of `textifyToolCallRounds`: builds the
`[Called tool ...]` summary lines, converts found results into user messages
(marking their ids consumed) and threads the consumed-id set. -/
def buildRound (idx : List (String × ToolResultMsg)) (consumed : List String) :
    List Block → List String × List Message × List String
  | [] => ([], [], consumed)
  | b :: bs =>
    match b with
    | .tool _ (some i) n inp ar =>
      let name := n.getD "unknown_tool"
      let argsStr := ((inp <|> ar)).getD "\x7b\x7d"
      let line := "[Called tool " ++ name ++ "(" ++ argsStr ++ ")]"
      match List.lookup i idx with
      | some r =>
        let rText := extractToolResultText r
        let um := Message.user (Sum.inl ("[Tool " ++ name ++ " result: " ++ rText ++ "]")) r.timestamp
        let acc := buildRound idx (i :: consumed) bs
        (line :: acc.1, um :: acc.2.1, acc.2.2)
      | none =>
        let acc := buildRound idx consumed bs
        (line :: acc.1, acc.2.1, acc.2.2)
    | _ => buildRound idx consumed bs

/-- The scan of `textifyToolCallRounds`: returns the output messages, the
final consumed-id set and the changed flag. -/
def textifyGo (idx : List (String × ToolResultMsg)) (consumed : List String) :
    List Message → List Message × List String × Bool
  | [] => ([], consumed, false)
  | m :: rest =>
    match m with
    | .toolResult r =>
      match extractToolResultId r with
      | some i =>
        if i ∈ consumed then
          let acc := textifyGo idx consumed rest
          (acc.1, acc.2.1, true)
        else
          let acc := textifyGo idx consumed rest
          (m :: acc.1, acc.2.1, acc.2.2)
      | none =>
        let acc := textifyGo idx consumed rest
        (m :: acc.1, acc.2.1, acc.2.2)
    | .user _ _ =>
      let acc := textifyGo idx consumed rest
      (m :: acc.1, acc.2.1, acc.2.2)
    | .assistant c stop =>
      let tcs := c.filter isTextifiableToolCall
      let others := c.filter fun b => !isTextifiableToolCall b
      if tcs.isEmpty then
        let acc := textifyGo idx consumed rest
        (m :: acc.1, acc.2.1, acc.2.2)
      else
        let round := buildRound idx consumed tcs
        let newContent := others ++ [Block.text (String.intercalate "\n" round.1)]
        let acc := textifyGo idx round.2.2 rest
        (.assistant newContent stop :: (round.2.1 ++ acc.1), acc.2.1, true)

/-- `textifyToolCallRounds` from the source: degrade tool-call rounds to plain
text; return the original list when nothing changed. -/
def textifyToolCallRounds (messages : List Message) : List Message :=
  let idx := buildIdxGo [] messages
  let acc := textifyGo idx [] messages
  if acc.2.2 then acc.1 else messages

/-- Report type of `repairToolUseResultPairing`. -/
structure ToolUseRepairReport where
  messages : List Message
  added : List ToolResultMsg
  droppedDuplicateCount : Nat
  droppedOrphanCount : Nat
  moved : Bool
deriving DecidableEq

/-- `stopReason === "error" || stopReason === "aborted"`. -/
def errorStop (stop : Option String) : Bool :=
  stop = some "error" || stop = some "aborted"

/-- Result of the lookahead span scan of `repairToolUseResultPairing`. -/
structure ScanOut where
  spanResults : List (String × ToolResultMsg)
  remainder : List Message
  dup : Nat
  orph : Nat
  changed : Bool
deriving DecidableEq

/-- The lookahead span scan of `repairToolUseResultPairing` (the inner
`j`-loop): classify each span message as span result (first occurrence per
id), duplicate, orphan or remainder.  `acc` accumulates `spanResultsById` in
insertion order. -/
def scanSpanGo (callIds : List String) (seen : List String)
    (acc : List (String × ToolResultMsg)) : List Message → ScanOut
  | [] => ⟨acc, [], 0, 0, false⟩
  | m :: rest =>
    match m with
    | .toolResult r =>
      match extractToolResultId r with
      | some i =>
        if i ∈ callIds then
          if i ∈ seen then
            let o := scanSpanGo callIds seen acc rest
            { o with dup := o.dup + 1, changed := true }
          else if (List.lookup i acc).isSome then
            scanSpanGo callIds seen acc rest
          else
            scanSpanGo callIds seen (acc ++ [(i, r)]) rest
        else
          let o := scanSpanGo callIds seen acc rest
          { o with orph := o.orph + 1, changed := true }
      | none =>
        let o := scanSpanGo callIds seen acc rest
        { o with orph := o.orph + 1, changed := true }
    | _ =>
      let o := scanSpanGo callIds seen acc rest
      { o with remainder := m :: o.remainder }

/-- Result of the emission loop of `repairToolUseResultPairing`. -/
structure EmitOut where
  msgs : List Message
  added : List ToolResultMsg
  dup : Nat
  changed : Bool
  seen : List String
deriving DecidableEq

/-- The emission loop of `repairToolUseResultPairing`: for each invocation in
order, emit the span result if present, otherwise a synthetic error result;
`pushToolResult` drops a result whose id was already seen (global
deduplication) and records emitted ids in `seen`. -/
def emitCalls (now : Nat) (spanRes : List (String × ToolResultMsg))
    (seen : List String) : List (String × Option String) → EmitOut
  | [] => ⟨[], [], 0, false, seen⟩
  | (i, n) :: cs =>
    match List.lookup i spanRes with
    | some r =>
      match extractToolResultId r with
      | some i2 =>
        if i2 ∈ seen then
          let e := emitCalls now spanRes seen cs
          { e with dup := e.dup + 1, changed := true }
        else
          let e := emitCalls now spanRes (i2 :: seen) cs
          { e with msgs := .toolResult r :: e.msgs }
      | none =>
        let e := emitCalls now spanRes seen cs
        { e with msgs := .toolResult r :: e.msgs }
    | none =>
      let missing := makeMissingToolResult now i n
      match extractToolResultId missing with
      | some i2 =>
        if i2 ∈ seen then
          let e := emitCalls now spanRes seen cs
          { e with added := missing :: e.added, dup := e.dup + 1, changed := true }
        else
          let e := emitCalls now spanRes (i2 :: seen) cs
          { e with msgs := .toolResult missing :: e.msgs,
                   added := missing :: e.added, changed := true }
      | none =>
        let e := emitCalls now spanRes seen cs
        { e with msgs := .toolResult missing :: e.msgs,
                 added := missing :: e.added, changed := true }

/-- Accumulated state of the main scan of `repairToolUseResultPairing`. -/
structure RepairAcc where
  out : List Message
  added : List ToolResultMsg
  dup : Nat
  orph : Nat
  movedF : Bool
  changed : Bool
  seen : List String
deriving DecidableEq

/-- The main left-to-right scan of `repairToolUseResultPairing`: free-floating
tool-results are dropped as orphans; error/aborted assistants and assistants
without invocations pass through; an assistant with invocations consumes its
lookahead span (everything up to the next assistant), then the assistant, the
per-invocation results and the remainder are emitted in order. -/
def repairGo (now : Nat) (seen : List String) : List Message → RepairAcc
  | [] => ⟨[], [], 0, 0, false, false, seen⟩
  | m :: rest =>
    match m with
    | .toolResult _ =>
      let a := repairGo now seen rest
      { a with orph := a.orph + 1, changed := true }
    | .user _ _ =>
      let a := repairGo now seen rest
      { a with out := m :: a.out }
    | .assistant c stop =>
      if errorStop stop then
        let a := repairGo now seen rest
        { a with out := m :: a.out }
      else
        let calls := extractToolCallsFromAssistant c
        if calls.isEmpty then
          let a := repairGo now seen rest
          { a with out := m :: a.out }
        else
          let span := rest.takeWhile fun x => !isAssistantRole x
          let rest2 := rest.dropWhile fun x => !isAssistantRole x
          let sc := scanSpanGo (calls.map Prod.fst) seen [] span
          let e := emitCalls now sc.spanResults seen calls
          let movedHere := !sc.spanResults.isEmpty && !sc.remainder.isEmpty
          let a := repairGo now e.seen rest2
          { out := m :: (e.msgs ++ sc.remainder ++ a.out)
            added := e.added ++ a.added
            dup := sc.dup + e.dup + a.dup
            orph := sc.orph + a.orph
            movedF := movedHere || a.movedF
            changed := sc.changed || e.changed || movedHere || a.changed
            seen := a.seen }
termination_by ms => ms.length
decreasing_by
  all_goals
    have h : ∀ (l : List Message),
        (List.dropWhile (fun x => !isAssistantRole x) l).length ≤ l.length := by
      intro l
      induction l with
      | nil => simp
      | cons a l ih =>
        rw [List.dropWhile_cons]
        split
        · exact le_trans ih (by simp)
        · exact Nat.le_refl _
    simp only [List.length_cons]
    apply Nat.lt_succ_of_le
    first
      | exact h rest
      | exact Nat.le_refl _

/-- `repairToolUseResultPairing` from the source: restore strict pairing; the
original list is returned when nothing changed, and the reported `moved` flag
is `changed || moved` (`changedOrMoved` in the source). -/
def repairToolUseResultPairing (now : Nat) (messages : List Message) :
    ToolUseRepairReport :=
  let a := repairGo now [] messages
  let changedOrMoved := a.changed || a.movedF
  { messages := if changedOrMoved then a.out else messages
    added := a.added
    droppedDuplicateCount := a.dup
    droppedOrphanCount := a.orph
    moved := changedOrMoved }

/-! Specification-side predicates used to state the claims. -/

/-- The ordered list of all invocation ids of assistant messages in a
transcript. -/
def allToolCallIds (ms : List Message) : List String :=
  ms.flatMap fun m =>
    match m with
    | .assistant c _ => (extractToolCallsFromAssistant c).map Prod.fst
    | _ => []

/-- The ordered list of correlation ids of tool-result messages in a
transcript. -/
def resultIdsOf (ms : List Message) : List String :=
  ms.filterMap fun m =>
    match m with
    | .toolResult r => extractToolResultId r
    | _ => none

/-- The correlation id of a message, when it is a tool-result message. -/
def msgResultId : Message → Option String
  | .toolResult r => extractToolResultId r
  | _ => none

/-- Consume, from the front of a transcript, exactly one tool-result message
per invocation id, in invocation order. -/
def pairConsume : List String → List Message → Option (List Message)
  | [], rest => some rest
  | i :: ids, .toolResult r :: rest =>
    if extractToolResultId r = some i then pairConsume ids rest else none
  | _ :: _, _ => none

/-- Fueled scan deciding the pairing invariant: every assistant message with
invocation blocks whose stop reason is not error/aborted is immediately
followed by exactly one tool-result per invocation id, with matching
correlation id, in invocation order (and not by a further adjacent tool-result
for one of those ids). -/
def pairOkGo : Nat → List Message → Bool
  | _, [] => true
  | 0, _ :: _ => false
  | fuel + 1, m :: rest =>
    match m with
    | .assistant c stop =>
      let cs := extractToolCallsFromAssistant c
      if errorStop stop || cs.isEmpty then pairOkGo fuel rest
      else
        match pairConsume (cs.map Prod.fst) rest with
        | some rest2 =>
          (match rest2 with
           | .toolResult r :: _ =>
             match extractToolResultId r with
             | some i => !(cs.map Prod.fst).contains i
             | none => true
           | _ => true) && pairOkGo fuel rest2
        | none => false
    | _ => pairOkGo fuel rest

/-- The pairing invariant of the spec, as a decidable transcript check. -/
def pairingInvariantHolds (ms : List Message) : Bool :=
  pairOkGo ms.length ms

/-- The claim's validity condition on invocation blocks: non-empty id and a
present arguments payload, for every tool-invocation block of every assistant
message. -/
def invocationBlocksValid (ms : List Message) : Bool :=
  ms.all fun m =>
    match m with
    | .assistant c _ =>
      c.all fun b => !isToolCallBlock b ||
        (decide ((blockId b).getD "" ≠ "") && hasToolCallInput b)
    | _ => true

/-- No assistant message holds a tool-invocation block lacking an arguments
payload: the sanitizer has nothing to change. -/
def noSanitizeNeeded (ms : List Message) : Bool :=
  ms.all fun m =>
    match m with
    | .assistant c _ => c.all fun b => !isDroppableBlock b
    | _ => true

/-- No assistant message holds a tool-invocation block with a string id: the
textifier has nothing to change. -/
def noTextifyNeeded (ms : List Message) : Bool :=
  ms.all fun m =>
    match m with
    | .assistant c _ => c.all fun b => !isTextifiableToolCall b
    | _ => true

/-- Consume, from the front of a span, exactly one matching, first-occurrence
tool-result per invocation id in invocation order, requiring the remainder of
the transcript to resume at an assistant message (or end); threads the set of
already-emitted ids. -/
def strictConsume (S : List String) :
    List (String × Option String) → List Message →
    Option (List String × List Message)
  | [], rest =>
    match rest with
    | [] => some (S, [])
    | m :: _ => if isAssistantRole m then some (S, rest) else none
  | (i, _) :: cs, .toolResult r :: rest =>
    if !(S.contains i) && extractToolResultId r = some i then
      strictConsume (i :: S) cs rest
    else none
  | _ :: _, _ => none

/-- Fueled scan deciding that the pairing repairer has nothing to change: no
free-floating tool-results, and every non-error assistant with invocations is
followed exactly by its matched results and then directly by the next
assistant turn. -/
def noRepairGo : Nat → List String → List Message → Bool
  | _, _, [] => true
  | 0, _, _ :: _ => false
  | fuel + 1, S, m :: rest =>
    match m with
    | .user _ _ => noRepairGo fuel S rest
    | .toolResult _ => false
    | .assistant c stop =>
      if errorStop stop then noRepairGo fuel S rest
      else
        match extractToolCallsFromAssistant c with
        | [] => noRepairGo fuel S rest
        | cs =>
          match strictConsume S cs rest with
          | some (S2, rest2) => noRepairGo fuel S2 rest2
          | none => false

/-- The pairing repairer has nothing to change on this transcript. -/
def noRepairNeeded (ms : List Message) : Bool :=
  noRepairGo ms.length [] ms

/-! Canonical form of the pairing repairer's output, used for idempotence:
`BlockRes S cs results S'` describes the block of tool-results emitted for the
invocation list `cs` starting from emitted-id set `S` (skipping ids already
seen, emitting exactly one result per fresh id), and `Canon S ms S'` describes
a transcript consisting of user messages, error/invocation-free assistant
messages and repaired blocks. -/

inductive BlockRes : List String → List (String × Option String) →
    List Message → List String → Prop where
  | nil (S : List String) : BlockRes S [] [] S
  | skip {S S' : List String} {i : String} {n : Option String}
      {cs : List (String × Option String)} {ms : List Message} :
      i ∈ S → BlockRes S cs ms S' → BlockRes S ((i, n) :: cs) ms S'
  | emit {S S' : List String} {i : String} {n : Option String}
      {cs : List (String × Option String)} {ms : List Message}
      {r : ToolResultMsg} :
      i ∉ S → extractToolResultId r = some i → BlockRes (i :: S) cs ms S' →
      BlockRes S ((i, n) :: cs) (Message.toolResult r :: ms) S'

inductive Canon : List String → List Message → List String → Prop where
  | nil (S : List String) : Canon S [] S
  | user {S S' : List String} {u : Sum String (List Block)} {t : Nat}
      {rest : List Message} :
      Canon S rest S' → Canon S (Message.user u t :: rest) S'
  | skipAsst {S S' : List String} {c : List Block} {stop : Option String}
      {rest : List Message} :
      (errorStop stop = true ∨ extractToolCallsFromAssistant c = []) →
      Canon S rest S' → Canon S (Message.assistant c stop :: rest) S'
  | block {S S2 S' : List String} {c : List Block} {stop : Option String}
      {results rest : List Message} :
      errorStop stop = false →
      extractToolCallsFromAssistant c ≠ [] →
      BlockRes S (extractToolCallsFromAssistant c) results S2 →
      Canon S2 rest S' →
      Canon S (Message.assistant c stop :: (results ++ rest)) S'

/-- The `(correlation id, result)` pairs of the tool-result messages of a
list, in order, skipping messages without ids. -/
def resultPairs : List Message → List (String × ToolResultMsg)
  | [] => []
  | .toolResult r :: rest =>
    match extractToolResultId r with
    | some i => (i, r) :: resultPairs rest
    | none => resultPairs rest
  | _ :: rest => resultPairs rest

/-! Concrete fixtures used by counterexamples and witnesses. -/

/-- An assistant message invoking tool `t` with id `x`. -/
def exAsstX : Message :=
  .assistant [Block.tool .toolCall (some "x") (some "t") (some "1") none] none

/-- A tool-result message with correlation id `x`. -/
def exResX : ToolResultMsg :=
  { toolCallId := "x", toolUseId := "", toolName := "t"
    content := Sum.inl "hello", isError := false, timestamp := 5 }

/-- `exResX` as a transcript message. -/
def exMsgX : Message := .toolResult exResX

/-- A plain user message. -/
def exUser : Message := .user (Sum.inl "hi") 0

/-- An assistant message with a tool-invocation block whose id is empty but
whose arguments payload is present. -/
def exAsstEmptyId : Message :=
  .assistant [Block.tool .toolCall (some "") (some "t") (some "1") none] none

/-! Helper lemmas. -/

theorem length_jsSlice (s : String) (n : Nat) :
    (jsSlice s n).length = min n s.length := by
  show (s.data.take n).length = _
  simp

theorem repair_eval_dup :
    repairToolUseResultPairing 0 [exAsstX, exMsgX, exMsgX] =
      { messages := [exAsstX, exMsgX, exMsgX], added := []
        droppedDuplicateCount := 0, droppedOrphanCount := 0, moved := false } := by
  simp [repairToolUseResultPairing, repairGo, scanSpanGo, emitCalls,
    exAsstX, exMsgX, exResX, extractToolResultId, extractToolCallsFromAssistant,
    errorStop, isAssistantRole]

/-! Claim theorems. -/

/-- C8: a tool-result text of length at most 800 is embedded unchanged by the
textifier's truncation; a longer text becomes exactly its first 800 characters
followed by the literal suffix `… (truncated)` (of length 13, hence total
length 813). -/
theorem claim_C8_truncation (s : String) :
    (s.length ≤ 800 → truncateToolResultForTextify s = s) ∧
    (800 < s.length →
      truncateToolResultForTextify s = jsSlice s 800 ++ "… (truncated)" ∧
      (truncateToolResultForTextify s).length = 813) := by
  constructor
  · intro h
    simp [truncateToolResultForTextify, TEXTIFY_MAX_RESULT_CHARS, h]
  · intro h
    have hn : ¬ s.length ≤ 800 := by omega
    refine ⟨by simp [truncateToolResultForTextify, TEXTIFY_MAX_RESULT_CHARS, hn], ?_⟩
    have hm : ("… (truncated)" : String).length = 13 := by decide
    simp [truncateToolResultForTextify, TEXTIFY_MAX_RESULT_CHARS, hn,
      String.length_append, length_jsSlice, hm]
    omega

/-- Witness for C8 at a short and a long concrete string. -/
theorem claim_C8_truncation_witness :
    ("hi".length ≤ 800 ∧ truncateToolResultForTextify "hi" = "hi") ∧
    (800 < (String.mk (List.replicate 801 'a')).length ∧
      truncateToolResultForTextify (String.mk (List.replicate 801 'a')) =
        jsSlice (String.mk (List.replicate 801 'a')) 800 ++ "… (truncated)") := by
  have h1 : "hi".length ≤ 800 := by decide
  have h2 : 800 < (String.mk (List.replicate 801 'a')).length := by
    show 800 < (List.replicate 801 'a').length
    rw [List.length_replicate]
    omega
  exact ⟨⟨h1, (claim_C8_truncation "hi").1 h1⟩,
    ⟨h2, ((claim_C8_truncation _).2 h2).1⟩⟩

/-- C1 (failing evaluation): on the transcript `[assistant invoking id x,
result x, result x]` all invocation ids are unique, yet the repairer reports
no change and returns the transcript with both copies of the result, so the
assistant is not followed by exactly one tool-result per invocation id. -/
theorem claim_C1_failing_eval :
    (allToolCallIds [exAsstX, exMsgX, exMsgX]).Nodup ∧
    (repairToolUseResultPairing 0 [exAsstX, exMsgX, exMsgX]).messages =
      [exAsstX, exMsgX, exMsgX] ∧
    pairingInvariantHolds
      (repairToolUseResultPairing 0 [exAsstX, exMsgX, exMsgX]).messages = false := by
  have h := repair_eval_dup
  refine ⟨by decide, by rw [h], by rw [h]; decide⟩

/-- C2 (failing evaluation): the repaired output of `[assistant invoking id x,
result x, result x]` contains two tool-result messages with the same
correlation id `x`. -/
theorem claim_C2_failing_eval :
    (repairToolUseResultPairing 0 [exAsstX, exMsgX, exMsgX]).messages =
      [exAsstX, exMsgX, exMsgX] ∧
    ¬ (resultIdsOf
        (repairToolUseResultPairing 0 [exAsstX, exMsgX, exMsgX]).messages).Nodup := by
  have h := repair_eval_dup
  refine ⟨by rw [h], by rw [h]; decide⟩

/-- C3 (failing evaluation): on a transcript with two tool-results sharing
correlation id `x` (the second a later occurrence within one assistant span),
the repairer neither drops the second occurrence nor counts a duplicate:
`droppedDuplicateCount = 0` and the output still holds both. -/
theorem claim_C3_failing_eval :
    (repairToolUseResultPairing 0 [exAsstX, exMsgX, exMsgX]).droppedDuplicateCount = 0 ∧
    (repairToolUseResultPairing 0 [exAsstX, exMsgX, exMsgX]).messages =
      [exAsstX, exMsgX, exMsgX] := by
  have h := repair_eval_dup
  exact ⟨by rw [h], by rw [h]⟩

/-- C5 (counterexample): on `[assistant invoking id x]` (no tool-result
anywhere, hence no span result and nothing to relocate) the repairer inserts a
synthetic result and reports `moved = true`, contradicting the claim that
`moved` is false when only synthetic results were added. -/
theorem claim_C5_counterexample :
    (repairToolUseResultPairing 0 [exAsstX]).moved = true ∧
    ((repairToolUseResultPairing 0 [exAsstX]).added ≠ []) ∧
    ([exAsstX].all fun m => !isToolResultRole m) = true := by
  have h : repairToolUseResultPairing 0 [exAsstX] =
      { messages := [exAsstX, .toolResult (makeMissingToolResult 0 "x" (some "t"))]
        added := [makeMissingToolResult 0 "x" (some "t")]
        droppedDuplicateCount := 0, droppedOrphanCount := 0, moved := true } := by
    simp [repairToolUseResultPairing, repairGo, scanSpanGo, emitCalls,
      exAsstX, extractToolResultId, extractToolCallsFromAssistant,
      errorStop, isAssistantRole, makeMissingToolResult]
  refine ⟨by rw [h], by rw [h]; decide, by decide⟩

/-- C4 (counterexample): an assistant message whose only tool-invocation block
has an empty id but a present arguments payload passes the sanitizer and the
pairing repairer untouched, so the repaired output violates the claimed
"non-empty id" part of the validity condition. -/
theorem claim_C4_counterexample :
    (repairToolUseResultPairing 0 (sanitizeToolCallInputs [exAsstEmptyId])).messages =
      [exAsstEmptyId] ∧
    invocationBlocksValid [exAsstEmptyId] = false := by
  have hs : sanitizeToolCallInputs [exAsstEmptyId] = [exAsstEmptyId] := by decide
  rw [hs]
  have h : (repairToolUseResultPairing 0 [exAsstEmptyId]).messages = [exAsstEmptyId] := by
    simp [repairToolUseResultPairing, repairGo, exAsstEmptyId,
      extractToolCallsFromAssistant, errorStop]
  exact ⟨h, by decide⟩

theorem repairGo_no_asst (now : Nat) (seen : List String) (pre : List Message)
    (h : ∀ m ∈ pre, isAssistantRole m = false) :
    repairGo now seen pre =
      { out := pre.filter fun m => !isToolResultRole m
        added := [], dup := 0
        orph := pre.countP isToolResultRole
        movedF := false
        changed := pre.any isToolResultRole
        seen := seen } := by
  induction pre with
  | nil => simp [repairGo]
  | cons m rest ih =>
    have hm := h m (by simp)
    have hrest : ∀ x ∈ rest, isAssistantRole x = false := fun x hx => h x (by simp [hx])
    cases m with
    | user u t =>
      simp only [repairGo]
      rw [ih hrest]
      simp [List.countP_cons, isToolResultRole, List.filter_cons]
    | assistant c stop => simp [isAssistantRole] at hm
    | toolResult r =>
      simp only [repairGo]
      rw [ih hrest]
      simp [List.countP_cons, isToolResultRole, List.filter_cons]

/-- C10: an assistant message with stop reason error/aborted is emitted
unchanged by the pairing repairer, and every tool-result following it before
the next assistant message is dropped, incrementing `droppedOrphanCount` once
per dropped result. -/
theorem claim_C10_error_aborted (now : Nat) (c : List Block) (stop : Option String)
    (pre : List Message) (hstop : errorStop stop = true)
    (hpre : ∀ m ∈ pre, isAssistantRole m = false) :
    (repairToolUseResultPairing now (.assistant c stop :: pre)).messages =
      .assistant c stop :: (pre.filter fun m => !isToolResultRole m) ∧
    (repairToolUseResultPairing now (.assistant c stop :: pre)).droppedOrphanCount =
      pre.countP isToolResultRole := by
  have hgo : repairGo now [] (.assistant c stop :: pre) =
      { out := .assistant c stop :: (pre.filter fun m => !isToolResultRole m)
        added := [], dup := 0
        orph := pre.countP isToolResultRole
        movedF := false
        changed := pre.any isToolResultRole
        seen := [] } := by
    simp only [repairGo, hstop, if_true]
    rw [repairGo_no_asst now [] pre hpre]
  constructor
  · simp only [repairToolUseResultPairing, hgo]
    by_cases hany : pre.any isToolResultRole
    · simp [hany]
    · have : pre.filter (fun m => !isToolResultRole m) = pre := by
        rw [List.filter_eq_self]
        intro a ha
        simp only [List.any_eq_true, not_exists, not_and] at hany
        simp [hany a ha]
      simp [hany, this]
  · simp [repairToolUseResultPairing, hgo]

/-- Witness for C10: a concrete errored assistant followed by one matching
tool-result; the result is dropped and counted as an orphan. -/
theorem claim_C10_error_aborted_witness :
    (repairToolUseResultPairing 0 [.assistant [] (some "error"), exMsgX]).messages =
      [.assistant [] (some "error")] ∧
    (repairToolUseResultPairing 0 [.assistant [] (some "error"), exMsgX]).droppedOrphanCount = 1 := by
  have h := claim_C10_error_aborted 0 [] (some "error") [exMsgX] (by decide) (by decide)
  simpa using h

/-- C5 (amended): the reported `moved` flag is true whenever any repair
occurred, not only on relocation: whenever a span result coexisted with
non-empty remainder (`movedF` of the scan) the report has `moved = true`,
and conversely whenever the report has `moved = false` the repairer changed
nothing and returned the input sequence itself. -/
theorem claim_C5_moved_amended (now : Nat) (ms : List Message) :
    ((repairToolUseResultPairing now ms).moved = false →
      (repairToolUseResultPairing now ms).messages = ms) ∧
    ((repairGo now [] ms).movedF = true →
      (repairToolUseResultPairing now ms).moved = true) := by
  constructor
  · intro h
    simp only [repairToolUseResultPairing] at h ⊢
    simp [h]
  · intro h
    simp [repairToolUseResultPairing, h]

/-- Witness for C5 (amended): a no-op transcript is returned unchanged with
`moved = false`; a transcript with a displaced result reports `moved = true`. -/
theorem claim_C5_moved_amended_witness :
    (repairToolUseResultPairing 0 [exUser]).messages = [exUser] ∧
    (repairToolUseResultPairing 0 [exAsstX, exUser, exMsgX]).moved = true := by
  have e1 : (repairToolUseResultPairing 0 [exUser]).moved = false := by
    simp [repairToolUseResultPairing, repairGo, exUser]
  have e2 : (repairGo 0 [] [exAsstX, exUser, exMsgX]).movedF = true := by
    simp [repairGo, scanSpanGo, emitCalls, exAsstX, exUser, exMsgX, exResX,
      extractToolResultId, extractToolCallsFromAssistant, errorStop, isAssistantRole]
  exact ⟨(claim_C5_moved_amended 0 [exUser]).1 e1,
    (claim_C5_moved_amended 0 [exAsstX, exUser, exMsgX]).2 e2⟩

theorem sanitizeGo_asst_mem (ms : List Message) (c : List Block) (stop : Option String)
    (hmem : Message.assistant c stop ∈ (sanitizeGo ms).1) :
    ∀ b ∈ c, isDroppableBlock b = false := by
  induction ms with
  | nil => simp [sanitizeGo] at hmem
  | cons m rest ih =>
    cases m with
    | user u t =>
      simp only [sanitizeGo] at hmem
      cases hmem with
      | tail _ h => exact ih h
    | toolResult r =>
      simp only [sanitizeGo] at hmem
      cases hmem with
      | tail _ h => exact ih h
    | assistant c0 stop0 =>
      simp only [sanitizeGo] at hmem
      by_cases hd : 0 < (c0.filter isDroppableBlock).length
      · simp only [hd, if_true] at hmem
        by_cases he : (c0.filter fun b => !isDroppableBlock b).isEmpty
        · simp only [he, if_true] at hmem
          exact ih hmem
        · simp only [he, if_false] at hmem
          cases hmem with
          | head =>
            intro b hb
            have := List.of_mem_filter hb
            simpa using this
          | tail _ h => exact ih h
      · simp only [hd, if_false] at hmem
        cases hmem with
        | head =>
          intro b hb
          by_contra hcon
          simp only [Bool.not_eq_false] at hcon
          have hmem2 := List.mem_filter.mpr (And.intro hb hcon)
          rw [Nat.not_lt, Nat.le_zero, List.length_eq_zero] at hd
          rw [hd] at hmem2
          simp at hmem2
        | tail _ h => exact ih h

theorem sanitizeGo_unchanged (ms : List Message)
    (h : (sanitizeGo ms).2.2.2 = false) : (sanitizeGo ms).1 = ms := by
  induction ms with
  | nil => simp [sanitizeGo]
  | cons m rest ih =>
    cases m with
    | user u t =>
      simp only [sanitizeGo] at h ⊢
      rw [ih h]
    | toolResult r =>
      simp only [sanitizeGo] at h ⊢
      rw [ih h]
    | assistant c0 stop0 =>
      simp only [sanitizeGo] at h ⊢
      by_cases hd : 0 < (c0.filter isDroppableBlock).length
      · simp only [hd, if_true] at h
        by_cases he : (c0.filter fun b => !isDroppableBlock b).isEmpty
        · simp [he] at h
        · simp [he] at h
      · simp only [hd, if_false] at h ⊢
        rw [ih h]

theorem sanitize_asst_mem (ms : List Message) (c : List Block) (stop : Option String)
    (hmem : Message.assistant c stop ∈ sanitizeToolCallInputs ms) :
    ∀ b ∈ c, isDroppableBlock b = false := by
  apply sanitizeGo_asst_mem ms c stop
  simp only [sanitizeToolCallInputs, repairToolCallInputs] at hmem
  by_cases hch : (sanitizeGo ms).2.2.2
  · simpa [hch] using hmem
  · rw [sanitizeGo_unchanged ms (by simpa using hch)]
    simpa [hch] using hmem

theorem emitCalls_msgs_role (now : Nat) (spanRes : List (String × ToolResultMsg))
    (cs : List (String × Option String)) :
    ∀ seen, ∀ m ∈ (emitCalls now spanRes seen cs).msgs, isToolResultRole m = true := by
  induction cs with
  | nil => intro seen; simp [emitCalls]
  | cons p cs ih =>
    obtain ⟨i, n⟩ := p
    intro seen
    cases hlk : List.lookup i spanRes with
    | some r =>
      cases hex : extractToolResultId r with
      | some i2 =>
        by_cases hmem : i2 ∈ seen
        · simp only [emitCalls, hlk, hex, hmem, if_true]
          exact ih seen
        · simp only [emitCalls, hlk, hex, hmem, if_false]
          intro m hm
          rcases List.mem_cons.mp hm with h | h
          · simp [h, isToolResultRole]
          · exact ih _ m h
      | none =>
        simp only [emitCalls, hlk, hex]
        intro m hm
        rcases List.mem_cons.mp hm with h | h
        · simp [h, isToolResultRole]
        · exact ih _ m h
    | none =>
      cases hex : extractToolResultId (makeMissingToolResult now i n) with
      | some i2 =>
        by_cases hmem : i2 ∈ seen
        · simp only [emitCalls, hlk, hex, hmem, if_true]
          exact ih seen
        · simp only [emitCalls, hlk, hex, hmem, if_false]
          intro m hm
          rcases List.mem_cons.mp hm with h | h
          · simp [h, isToolResultRole]
          · exact ih _ m h
      | none =>
        simp only [emitCalls, hlk, hex]
        intro m hm
        rcases List.mem_cons.mp hm with h | h
        · simp [h, isToolResultRole]
        · exact ih _ m h

theorem scanSpanGo_remainder_mem (callIds seen : List String)
    (span : List Message) :
    ∀ acc, ∀ m ∈ (scanSpanGo callIds seen acc span).remainder, m ∈ span := by
  induction span with
  | nil => intro acc; simp [scanSpanGo]
  | cons x rest ih =>
    intro acc
    cases x with
    | toolResult r =>
      cases hex : extractToolResultId r with
      | some i =>
        by_cases hc : i ∈ callIds
        · by_cases hs : i ∈ seen
          · simp only [scanSpanGo, hex, hc, hs, if_true]
            intro m hm
            exact List.mem_cons_of_mem _ (ih acc m hm)
          · by_cases hl : (List.lookup i acc).isSome
            · simp only [scanSpanGo, hex, hc, hs, hl, if_true, if_false]
              intro m hm
              exact List.mem_cons_of_mem _ (ih acc m hm)
            · simp only [scanSpanGo, hex, hc, hs, hl, if_false]
              intro m hm
              exact List.mem_cons_of_mem _ (ih _ m hm)
        · simp only [scanSpanGo, hex, hc, if_false]
          intro m hm
          exact List.mem_cons_of_mem _ (ih acc m hm)
      | none =>
        simp only [scanSpanGo, hex]
        intro m hm
        exact List.mem_cons_of_mem _ (ih acc m hm)
    | user u t =>
      simp only [scanSpanGo]
      intro m hm
      rcases List.mem_cons.mp hm with h | h
      · simp [h]
      · exact List.mem_cons_of_mem _ (ih acc m h)
    | assistant c0 stop0 =>
      simp only [scanSpanGo]
      intro m hm
      rcases List.mem_cons.mp hm with h | h
      · simp [h]
      · exact List.mem_cons_of_mem _ (ih acc m h)

theorem repairGo_asst_mem (now : Nat) :
    ∀ (seen : List String) (ms : List Message) (c : List Block) (stop : Option String),
      Message.assistant c stop ∈ (repairGo now seen ms).out →
      Message.assistant c stop ∈ ms := by
  intro seen ms
  induction seen, ms using repairGo.induct now with
  | case1 seen => intro c stop h; simp [repairGo] at h
  | case2 seen rest r ih =>
    intro c stop h
    simp only [repairGo] at h
    exact List.mem_cons_of_mem _ (ih c stop h)
  | case3 seen rest u t ih =>
    intro c stop h
    simp only [repairGo] at h
    rcases List.mem_cons.mp h with h | h
    · exact absurd h (by simp)
    · exact List.mem_cons_of_mem _ (ih c stop h)
  | case4 seen rest c0 stop0 hstop ih =>
    intro c stop h
    simp only [repairGo, hstop, if_true] at h
    rcases List.mem_cons.mp h with h | h
    · simp [h]
    · exact List.mem_cons_of_mem _ (ih c stop h)
  | case5 seen rest c0 stop0 hstop calls hcalls ih =>
    intro c stop h
    simp only [repairGo] at h
    rw [if_neg hstop, if_pos hcalls] at h
    rcases List.mem_cons.mp h with h | h
    · simp [h]
    · exact List.mem_cons_of_mem _ (ih c stop h)
  | case6 seen rest c0 stop0 hstop calls hcalls span rest2 sc e ih =>
    intro c stop h
    simp only [repairGo] at h
    rw [if_neg hstop, if_neg hcalls] at h
    rcases List.mem_cons.mp h with h | h
    · simp [h]
    · rcases List.mem_append.mp h with h | h
      · rcases List.mem_append.mp h with h | h
        · have := emitCalls_msgs_role now _ _ _ _ h
          simp [isToolResultRole] at this
        · have hspan := scanSpanGo_remainder_mem _ _ _ _ _ h
          have := (List.takeWhile_prefix (fun x => !isAssistantRole x)).subset hspan
          exact List.mem_cons_of_mem _ this
      · have := ih c stop h
        have := (List.dropWhile_suffix (fun x => !isAssistantRole x)).subset this
        exact List.mem_cons_of_mem _ this

/-- C4 (amended): every tool-invocation block inside an assistant message of
the output of the sanitizer followed by the pairing repairer has a present
(non-null) arguments payload; the non-empty-id part of the original claim is
not enforced by either transform. -/
theorem claim_C4_amended (now : Nat) (ms : List Message) (c : List Block)
    (stop : Option String)
    (hmem : Message.assistant c stop ∈
      (repairToolUseResultPairing now (sanitizeToolCallInputs ms)).messages)
    (b : Block) (hb : b ∈ c) (htc : isToolCallBlock b = true) :
    hasToolCallInput b = true := by
  have hsan : Message.assistant c stop ∈ sanitizeToolCallInputs ms := by
    simp only [repairToolUseResultPairing] at hmem
    by_cases hch : ((repairGo now [] (sanitizeToolCallInputs ms)).changed ||
        (repairGo now [] (sanitizeToolCallInputs ms)).movedF)
    · rw [if_pos hch] at hmem
      exact repairGo_asst_mem now [] _ c stop hmem
    · rwa [if_neg hch] at hmem
  have hnd := sanitize_asst_mem ms c stop hsan b hb
  simp only [isDroppableBlock, htc, Bool.true_and] at hnd
  simpa using hnd

/-- Witness for C4 (amended) at a concrete repaired transcript. -/
theorem claim_C4_amended_witness :
    hasToolCallInput (Block.tool .toolCall (some "x") (some "t") (some "1") none) = true := by
  have hs : sanitizeToolCallInputs [exAsstX] = [exAsstX] := by decide
  have hr : (repairToolUseResultPairing 0 (sanitizeToolCallInputs [exAsstX])).messages =
      [exAsstX, .toolResult (makeMissingToolResult 0 "x" (some "t"))] := by
    rw [hs]
    simp [repairToolUseResultPairing, repairGo, scanSpanGo, emitCalls,
      exAsstX, extractToolResultId, extractToolCallsFromAssistant,
      errorStop, isAssistantRole, makeMissingToolResult]
  apply claim_C4_amended 0 [exAsstX]
    [Block.tool .toolCall (some "x") (some "t") (some "1") none] none
  · rw [hr]
    exact List.mem_cons_self _ _
  · exact List.mem_cons_self _ _
  · decide

theorem lookup_append_none {α β : Type} [BEq α] (a : α) (l1 l2 : List (α × β))
    (h : List.lookup a l1 = none) :
    List.lookup a (l1 ++ l2) = List.lookup a l2 := by
  induction l1 with
  | nil => simp
  | cons p rest ih =>
    obtain ⟨k, v⟩ := p
    by_cases hk : a == k
    · simp [List.lookup, hk] at h
    · simp only [List.lookup, hk, List.cons_append] at h ⊢
      exact ih h

theorem scanSpanGo_strict (callIds S : List String) :
    ∀ (results : List Message) (acc : List (String × ToolResultMsg)),
      (∀ m ∈ results, ∃ r i2, m = Message.toolResult r ∧
        extractToolResultId r = some i2) →
      (∀ q ∈ resultPairs results, q.1 ∈ callIds ∧ q.1 ∉ S) →
      ((resultPairs results).map Prod.fst).Nodup →
      (∀ q ∈ resultPairs results, List.lookup q.1 acc = none) →
      scanSpanGo callIds S acc results = ⟨acc ++ resultPairs results, [], 0, 0, false⟩ := by
  intro results
  induction results with
  | nil => intro acc _ _ _ _; simp [scanSpanGo, resultPairs]
  | cons m rest ih =>
    intro acc hshape hq hnd hacc
    obtain ⟨r, i2, hm, hid⟩ := hshape m (by simp)
    subst hm
    have hpairs : resultPairs (Message.toolResult r :: rest) = (i2, r) :: resultPairs rest := by
      simp [resultPairs, hid]
    have hqh := hq (i2, r) (by rw [hpairs]; simp)
    have hlk : List.lookup i2 acc = none := hacc (i2, r) (by rw [hpairs]; simp)
    rw [hpairs] at hq hnd hacc
    simp only [List.map_cons, List.nodup_cons] at hnd
    have step : scanSpanGo callIds S acc (Message.toolResult r :: rest) =
        scanSpanGo callIds S (acc ++ [(i2, r)]) rest := by
      simp [scanSpanGo, hid, hqh.1, hqh.2, hlk]
    rw [step]
    rw [ih (acc ++ [(i2, r)])
      (fun m hm => hshape m (by simp [hm]))
      (fun q hqq => hq q (by simp [hqq]))
      hnd.2
      (fun q hqq => by
        have hne : q.1 ≠ i2 := by
          intro he
          apply hnd.1
          rw [← he]
          exact List.mem_map_of_mem Prod.fst hqq
        rw [lookup_append_none _ _ _ (hacc q (by simp [hqq]))]
        have hb : (q.1 == i2) = false := by simp [hne]
        simp [List.lookup, hb])]
    simp [hpairs]

theorem strictConsume_spec :
    ∀ (cs : List (String × Option String)) (S : List String) (rest : List Message)
      (S2 : List String) (rest2 : List Message),
      strictConsume S cs rest = some (S2, rest2) →
      ∃ results,
        rest = results ++ rest2 ∧
        (∀ m ∈ results, ∃ r i2, m = Message.toolResult r ∧
          extractToolResultId r = some i2) ∧
        (∀ q ∈ resultPairs results, q.1 ∈ cs.map Prod.fst ∧ q.1 ∉ S) ∧
        ((resultPairs results).map Prod.fst).Nodup ∧
        (∀ p ∈ cs, ∃ r, List.lookup p.1 (resultPairs results) = some r ∧
          extractToolResultId r = some p.1) ∧
        (∀ p ∈ cs, p.1 ∉ S) ∧
        (rest2 = [] ∨ ∃ c2 s2 t2, rest2 = Message.assistant c2 s2 :: t2) := by
  intro cs
  induction cs with
  | nil =>
    intro S rest S2 rest2 h
    refine ⟨[], ?_, by simp, by simp [resultPairs], by simp [resultPairs], by simp, by simp, ?_⟩
    · cases rest with
      | nil =>
        simp only [strictConsume] at h
        obtain ⟨h1, h2⟩ := Prod.mk.injEq .. ▸ (Option.some.injEq .. ▸ h)
        simp [← h2]
      | cons m t =>
        simp only [strictConsume] at h
        by_cases ha : isAssistantRole m
        · rw [if_pos ha] at h
          obtain ⟨h1, h2⟩ := Prod.mk.injEq .. ▸ (Option.some.injEq .. ▸ h)
          simp [← h2]
        · simp [ha] at h
    · cases rest with
      | nil =>
        simp only [strictConsume] at h
        obtain ⟨h1, h2⟩ := Prod.mk.injEq .. ▸ (Option.some.injEq .. ▸ h)
        left
        exact h2.symm
      | cons m t =>
        simp only [strictConsume] at h
        by_cases ha : isAssistantRole m
        · rw [if_pos ha] at h
          obtain ⟨h1, h2⟩ := Prod.mk.injEq .. ▸ (Option.some.injEq .. ▸ h)
          right
          cases m with
          | assistant c0 s0 => exact ⟨c0, s0, t, h2.symm⟩
          | user u t0 => simp [isAssistantRole] at ha
          | toolResult r0 => simp [isAssistantRole] at ha
        · simp [ha] at h
  | cons p cs ih =>
    obtain ⟨i, n⟩ := p
    intro S rest S2 rest2 h
    cases rest with
    | nil => simp [strictConsume] at h
    | cons m t =>
      cases m with
      | user u t0 => simp [strictConsume] at h
      | assistant c0 s0 => simp [strictConsume] at h
      | toolResult r0 =>
        simp only [strictConsume] at h
        by_cases hcond : !(S.contains i) && extractToolResultId r0 = some i
        · rw [if_pos hcond] at h
          simp only [Bool.and_eq_true, Bool.not_eq_true', decide_eq_true_eq] at hcond
          obtain ⟨hnotS, hid0⟩ := hcond
          have hnotS' : i ∉ S := by simpa using hnotS
          obtain ⟨results', heq, hshape, hq, hnd, hlkp, hfresh, hhead⟩ :=
            ih (i :: S) t S2 rest2 h
          refine ⟨Message.toolResult r0 :: results', by simp [heq], ?_, ?_, ?_, ?_, ?_, hhead⟩
          · intro m hm
            rcases List.mem_cons.mp hm with hh | hh
            · exact ⟨r0, i, hh, hid0⟩
            · exact hshape m hh
          · intro q hqq
            rw [resultPairs, hid0] at hqq
            rcases List.mem_cons.mp hqq with hh | hh
            · subst hh
              exact ⟨by simp, hnotS'⟩
            · have := hq q hh
              refine ⟨by simp [this.1], fun hmem => this.2 (by simp [hmem])⟩
          · rw [resultPairs, hid0]
            simp only [List.map_cons, List.nodup_cons]
            refine ⟨?_, hnd⟩
            intro hmem
            rw [List.mem_map] at hmem
            obtain ⟨q, hqq, hq1⟩ := hmem
            exact (hq q hqq).2 (by simp [hq1])
          · intro p hp
            rw [resultPairs, hid0]
            rcases List.mem_cons.mp hp with hh | hh
            · subst hh
              exact ⟨r0, by simp [List.lookup], hid0⟩
            · obtain ⟨r, hlk, hide⟩ := hlkp p hh
              have hne : p.1 ≠ i := by
                intro he
                exact (hfresh p hh) (by simp [he])
              have hb : (p.1 == i) = false := by simp [hne]
              exact ⟨r, by simp [List.lookup, hb, hlk], hide⟩
          · intro p hp
            rcases List.mem_cons.mp hp with hh | hh
            · subst hh
              exact hnotS'
            · exact fun hmem => (hfresh p hh) (by simp [hmem])
        · rw [if_neg hcond] at h
          cases h

theorem emitCalls_strict (now : Nat) :
    ∀ (cs : List (String × Option String)) (S : List String) (rest : List Message)
      (S2 : List String) (rest2 : List Message)
      (spanRes : List (String × ToolResultMsg)),
      strictConsume S cs rest = some (S2, rest2) →
      (∀ p ∈ cs, ∃ r, List.lookup p.1 spanRes = some r ∧
        extractToolResultId r = some p.1) →
      (emitCalls now spanRes S cs).changed = false ∧
      (emitCalls now spanRes S cs).seen = S2 := by
  intro cs
  induction cs with
  | nil =>
    intro S rest S2 rest2 spanRes h _
    have hS : S2 = S := by
      cases rest with
      | nil =>
        simp only [strictConsume] at h
        obtain ⟨h1, h2⟩ := Prod.mk.injEq .. ▸ (Option.some.injEq .. ▸ h)
        exact h1.symm
      | cons m t =>
        simp only [strictConsume] at h
        by_cases ha : isAssistantRole m
        · rw [if_pos ha] at h
          obtain ⟨h1, h2⟩ := Prod.mk.injEq .. ▸ (Option.some.injEq .. ▸ h)
          exact h1.symm
        · simp [ha] at h
    simp [emitCalls, hS]
  | cons p cs ih =>
    obtain ⟨i, n⟩ := p
    intro S rest S2 rest2 spanRes h hlkp
    cases rest with
    | nil => simp [strictConsume] at h
    | cons m t =>
      cases m with
      | user u t0 => simp [strictConsume] at h
      | assistant c0 s0 => simp [strictConsume] at h
      | toolResult r0 =>
        simp only [strictConsume] at h
        by_cases hcond : !(S.contains i) && extractToolResultId r0 = some i
        · rw [if_pos hcond] at h
          simp only [Bool.and_eq_true, Bool.not_eq_true', decide_eq_true_eq] at hcond
          obtain ⟨hnotS, _⟩ := hcond
          have hnotS' : i ∉ S := by simpa using hnotS
          obtain ⟨r, hlk, hid⟩ := hlkp (i, n) (by simp)
          have step : emitCalls now spanRes S ((i, n) :: cs) =
              { emitCalls now spanRes (i :: S) cs with
                msgs := Message.toolResult r :: (emitCalls now spanRes (i :: S) cs).msgs } := by
            simp [emitCalls, hlk, hid, hnotS']
          rw [step]
          exact ih (i :: S) t S2 rest2 spanRes h fun p hp => hlkp p (by simp [hp])
        · rw [if_neg hcond] at h
          cases h

theorem split_span_strict (results rest2 : List Message)
    (hres : ∀ m ∈ results, isToolResultRole m = true)
    (hhead : rest2 = [] ∨ ∃ c2 s2 t2, rest2 = Message.assistant c2 s2 :: t2) :
    (results ++ rest2).takeWhile (fun x => !isAssistantRole x) = results ∧
    (results ++ rest2).dropWhile (fun x => !isAssistantRole x) = rest2 := by
  induction results with
  | nil =>
    rcases hhead with h | ⟨c2, s2, t2, h⟩
    · simp [h]
    · subst h
      constructor
      · simp [List.takeWhile_cons, isAssistantRole]
      · simp [List.dropWhile_cons, isAssistantRole]
  | cons m rest ih =>
    have hm := hres m (by simp)
    have hna : isAssistantRole m = false := by
      cases m with
      | toolResult r => simp [isAssistantRole]
      | user u t => simp [isToolResultRole] at hm
      | assistant c s => simp [isToolResultRole] at hm
    have ihx := ih fun x hx => hres x (by simp [hx])
    constructor
    · simp only [List.cons_append, List.takeWhile_cons, hna]
      simp [ihx.1]
    · simp only [List.cons_append, List.dropWhile_cons, hna]
      simp [ihx.2]

theorem repairGo_noop (now : Nat) :
    ∀ (fuel : Nat) (S : List String) (ms : List Message),
      noRepairGo fuel S ms = true →
      (repairGo now S ms).changed = false ∧ (repairGo now S ms).movedF = false := by
  intro fuel
  induction fuel with
  | zero =>
    intro S ms h
    cases ms with
    | nil => simp [repairGo]
    | cons m rest => simp [noRepairGo] at h
  | succ fuel ih =>
    intro S ms h
    cases ms with
    | nil => simp [repairGo]
    | cons m rest =>
      cases m with
      | user u t =>
        simp only [noRepairGo] at h
        have := ih S rest h
        simp only [repairGo]
        exact this
      | toolResult r => simp [noRepairGo] at h
      | assistant c stop =>
        simp only [noRepairGo] at h
        by_cases hstop : errorStop stop
        · rw [if_pos hstop] at h
          have := ih S rest h
          simp only [repairGo, hstop, if_true]
          exact this
        · rw [if_neg hstop] at h
          cases hcalls : extractToolCallsFromAssistant c with
          | nil =>
            rw [hcalls] at h
            have := ih S rest h
            simp only [repairGo, hstop, if_false, hcalls]
            simpa using this
          | cons p cs' =>
            rw [hcalls] at h
            have h : (match strictConsume S (p :: cs') rest with
                | some (S2, rest2) => noRepairGo fuel S2 rest2
                | none => false) = true := h
            cases hsc : strictConsume S (p :: cs') rest with
            | none => rw [hsc] at h; simp at h
            | some pr =>
              obtain ⟨S2, rest2⟩ := pr
              rw [hsc] at h
              obtain ⟨results, heq, hshape, hq, hnd, hlkp, hfresh, hhead⟩ :=
                strictConsume_spec (p :: cs') S rest S2 rest2 hsc
              have hres : ∀ m ∈ results, isToolResultRole m = true := by
                intro m hm
                obtain ⟨r, i2, hmeq, _⟩ := hshape m hm
                simp [hmeq, isToolResultRole]
              have hsplit := split_span_strict results rest2 hres hhead
              have hscan := scanSpanGo_strict ((p :: cs').map Prod.fst) S results []
                hshape
                (fun q hqq => (hq q hqq))
                hnd
                (fun q _ => by simp)
              have hemit := emitCalls_strict now (p :: cs') S rest S2 rest2
                (resultPairs results) hsc hlkp
              simp only [repairGo, hstop, if_false, hcalls]
              rw [if_neg (by simp)]
              rw [heq, hsplit.1, hsplit.2]
              rw [hscan]
              simp only [List.nil_append]
              have harec := ih S2 rest2 h
              rw [← hemit.2] at harec
              constructor
              · simp [hemit.1, harec.1]
              · simp [harec.2]

theorem sanitizeGo_noop (ms : List Message) (h : noSanitizeNeeded ms = true) :
    (sanitizeGo ms).2.2.2 = false := by
  induction ms with
  | nil => simp [sanitizeGo]
  | cons m rest ih =>
    simp only [noSanitizeNeeded, List.all_cons, Bool.and_eq_true] at h
    have hrest : noSanitizeNeeded rest = true := h.2
    cases m with
    | user u t => simp only [sanitizeGo]; exact ih hrest
    | toolResult r => simp only [sanitizeGo]; exact ih hrest
    | assistant c stop =>
      have hc : c.filter isDroppableBlock = [] := by
        rw [List.filter_eq_nil_iff]
        intro b hb
        have := h.1
        simp only [List.all_eq_true] at this
        simpa using this b hb
      simp only [sanitizeGo, hc]
      simp only [List.length_nil, Nat.lt_irrefl, if_false]
      exact ih hrest

theorem textifyGo_noop (idx : List (String × ToolResultMsg)) (ms : List Message)
    (h : noTextifyNeeded ms = true) :
    textifyGo idx [] ms = (ms, [], false) := by
  induction ms with
  | nil => simp [textifyGo]
  | cons m rest ih =>
    simp only [noTextifyNeeded, List.all_cons, Bool.and_eq_true] at h
    have hrest : noTextifyNeeded rest = true := h.2
    cases m with
    | user u t =>
      simp only [textifyGo]
      rw [ih hrest]
    | toolResult r =>
      cases hex : extractToolResultId r with
      | some i =>
        simp only [textifyGo, hex, List.not_mem_nil, if_false]
        rw [ih hrest]
      | none =>
        simp only [textifyGo, hex]
        rw [ih hrest]
    | assistant c stop =>
      have hc : c.filter isTextifiableToolCall = [] := by
        rw [List.filter_eq_nil_iff]
        intro b hb
        have := h.1
        simp only [List.all_eq_true] at this
        simpa using this b hb
      simp only [textifyGo, hc, List.isEmpty_nil, if_true]
      rw [ih hrest]

/-- C6: each of the three transforms returns its original input sequence when
no message requires change: the sanitizer when no tool-invocation block lacks
an arguments payload, the textifier when no assistant message holds a
tool-invocation block with a string id, and the pairing repairer when the
transcript is already strictly paired. -/
theorem claim_C6_identity_noop (ms : List Message) :
    (noSanitizeNeeded ms = true → sanitizeToolCallInputs ms = ms) ∧
    (noTextifyNeeded ms = true → textifyToolCallRounds ms = ms) ∧
    (noRepairNeeded ms = true →
      ∀ now, (repairToolUseResultPairing now ms).messages = ms) := by
  refine ⟨?_, ?_, ?_⟩
  · intro h
    simp [sanitizeToolCallInputs, repairToolCallInputs, sanitizeGo_noop ms h]
  · intro h
    simp [textifyToolCallRounds, textifyGo_noop (buildIdxGo [] ms) ms h]
  · intro h
    intro now
    have := repairGo_noop now ms.length [] ms h
    simp [repairToolUseResultPairing, this.1, this.2]

/-- Witness for C6 at a concrete no-op transcript. -/
theorem claim_C6_identity_noop_witness :
    sanitizeToolCallInputs [exUser, exAsstX, exMsgX] = [exUser, exAsstX, exMsgX] ∧
    textifyToolCallRounds [exUser] = [exUser] ∧
    (repairToolUseResultPairing 0 [exUser, exAsstX, exMsgX]).messages =
      [exUser, exAsstX, exMsgX] := by
  refine ⟨(claim_C6_identity_noop _).1 (by decide),
    (claim_C6_identity_noop _).2.1 (by decide),
    (claim_C6_identity_noop _).2.2 (by decide) 0⟩

theorem sanitize_out_clean (ms : List Message) :
    noSanitizeNeeded (sanitizeToolCallInputs ms) = true := by
  have hmem : ∀ m ∈ sanitizeToolCallInputs ms, m ∈ (sanitizeGo ms).1 := by
    intro m hm
    simp only [sanitizeToolCallInputs, repairToolCallInputs] at hm
    by_cases hch : (sanitizeGo ms).2.2.2
    · simpa [hch] using hm
    · rw [sanitizeGo_unchanged ms (by simpa using hch)]
      simpa [hch] using hm
  rw [noSanitizeNeeded, List.all_eq_true]
  intro m hm
  cases m with
  | user u t => simp
  | toolResult r => simp
  | assistant c stop =>
    have := sanitizeGo_asst_mem ms c stop (hmem _ hm)
    simp only [List.all_eq_true]
    intro b hb
    simp [this b hb]

theorem buildRound_results_user (idx : List (String × ToolResultMsg)) :
    ∀ (tcs : List Block) (consumed : List String),
      ∀ m ∈ (buildRound idx consumed tcs).2.1, isUserRole m = true := by
  intro tcs
  induction tcs with
  | nil => intro consumed; simp [buildRound]
  | cons b bs ih =>
    intro consumed
    cases b with
    | text t => simpa [buildRound] using ih consumed
    | other t => simpa [buildRound] using ih consumed
    | tool k i n inp ar =>
      cases i with
      | none => simpa [buildRound] using ih consumed
      | some i0 =>
        cases hlk : List.lookup i0 idx with
        | some r =>
          simp only [buildRound, hlk]
          intro m hm
          rcases List.mem_cons.mp hm with h | h
          · simp [h, isUserRole]
          · exact ih _ m h
        | none =>
          simp only [buildRound, hlk]
          exact ih consumed

theorem textifyGo_out_clean (idx : List (String × ToolResultMsg)) :
    ∀ (ms : List Message) (consumed : List String),
      noTextifyNeeded (textifyGo idx consumed ms).1 = true := by
  intro ms
  induction ms with
  | nil => intro consumed; simp [textifyGo, noTextifyNeeded]
  | cons m rest ih =>
    intro consumed
    have lift : ∀ (x : Message) (l : List Message),
        (match x with
          | Message.assistant c _ => c.all fun b => !isTextifiableToolCall b
          | _ => true) = true →
        noTextifyNeeded l = true → noTextifyNeeded (x :: l) = true := by
      intro x l hx hl
      simp only [noTextifyNeeded, List.all_cons, Bool.and_eq_true]
      exact ⟨hx, hl⟩
    cases m with
    | user u t =>
      simp only [textifyGo]
      exact lift _ _ (by simp) (ih consumed)
    | toolResult r =>
      cases hex : extractToolResultId r with
      | some i =>
        by_cases hc : i ∈ consumed
        · simp only [textifyGo, hex, hc, if_true]
          exact ih consumed
        · simp only [textifyGo, hex, hc, if_false]
          exact lift _ _ (by simp) (ih consumed)
      | none =>
        simp only [textifyGo, hex]
        exact lift _ _ (by simp) (ih consumed)
    | assistant c stop =>
      by_cases htcs : (c.filter isTextifiableToolCall).isEmpty
      · simp only [textifyGo, htcs, if_true]
        refine lift _ _ ?_ (ih consumed)
        simp only [List.isEmpty_iff, List.filter_eq_nil_iff] at htcs
        simp only [List.all_eq_true]
        intro b hb
        simp [htcs b hb]
      · simp only [textifyGo, htcs, if_false]
        have husers := buildRound_results_user idx (c.filter isTextifiableToolCall) consumed
        have hrest := ih (buildRound idx consumed (c.filter isTextifiableToolCall)).2.2
        have happ : noTextifyNeeded
            ((buildRound idx consumed (c.filter isTextifiableToolCall)).2.1 ++
              (textifyGo idx (buildRound idx consumed (c.filter isTextifiableToolCall)).2.2 rest).1) = true := by
          simp only [noTextifyNeeded, List.all_append, Bool.and_eq_true]
          constructor
          · simp only [List.all_eq_true]
            intro x hx
            have := husers x hx
            cases x with
            | user u t => simp
            | assistant c2 s2 => simp [isUserRole] at this
            | toolResult r2 => simp [isUserRole] at this
          · exact hrest
        refine lift _ _ ?_ happ
        simp only [List.all_append, List.all_cons, Bool.and_eq_true]
        refine ⟨?_, by simp [isTextifiableToolCall, isToolCallBlock, blockId]⟩
        simp only [List.all_eq_true]
        intro b hb
        have := List.of_mem_filter hb
        simpa using this

theorem textify_unfold (l : List Message) :
    textifyToolCallRounds l =
      (if (textifyGo (buildIdxGo [] l) [] l).2.2 = true
        then (textifyGo (buildIdxGo [] l) [] l).1 else l) := rfl

theorem sanitize_unfold (l : List Message) :
    sanitizeToolCallInputs l =
      (if (sanitizeGo l).2.2.2 = true then (sanitizeGo l).1 else l) := rfl

theorem sanitize_idem (ms : List Message) :
    sanitizeToolCallInputs (sanitizeToolCallInputs ms) = sanitizeToolCallInputs ms := by
  have h2 := sanitizeGo_noop (sanitizeToolCallInputs ms) (sanitize_out_clean ms)
  rw [sanitize_unfold (sanitizeToolCallInputs ms), h2]
  simp

theorem textify_idem (ms : List Message) :
    textifyToolCallRounds (textifyToolCallRounds ms) = textifyToolCallRounds ms := by
  by_cases hch : (textifyGo (buildIdxGo [] ms) [] ms).2.2
  · have hout : textifyToolCallRounds ms = (textifyGo (buildIdxGo [] ms) [] ms).1 := by
      simp [textifyToolCallRounds, hch]
    have hclean : noTextifyNeeded (textifyToolCallRounds ms) = true := by
      rw [hout]
      exact textifyGo_out_clean (buildIdxGo [] ms) ms []
    have h2 := textifyGo_noop (buildIdxGo [] (textifyToolCallRounds ms))
      (textifyToolCallRounds ms) hclean
    rw [textify_unfold (textifyToolCallRounds ms), h2]
    simp
  · have hout : textifyToolCallRounds ms = ms := by
      simp [textifyToolCallRounds, hch]
    rw [hout]
    exact hout

theorem lookup_none_not_mem {β : Type} (a : String) (l : List (String × β))
    (h : List.lookup a l = none) : a ∉ l.map Prod.fst := by
  induction l with
  | nil => simp
  | cons p rest ih =>
    obtain ⟨k, v⟩ := p
    by_cases hk : a == k
    · simp [List.lookup, hk] at h
    · simp only [List.lookup, hk] at h
      simp only [List.map_cons, List.mem_cons]
      rintro (he | he)
      · simp [he] at hk
      · exact ih h he

theorem lookup_mem {β : Type} (a : String) (l : List (String × β)) (b : β)
    (h : List.lookup a l = some b) : (a, b) ∈ l := by
  induction l with
  | nil => simp at h
  | cons p rest ih =>
    obtain ⟨k, v⟩ := p
    by_cases hk : a == k
    · simp only [List.lookup, hk] at h
      have hak : a = k := by simpa using hk
      obtain rfl := Option.some.injEq .. ▸ h
      simp [hak]
    · simp only [List.lookup, hk] at h
      exact List.mem_cons_of_mem _ (ih h)

theorem lookup_self_of_nodup {β : Type} (l : List (String × β))
    (hnd : (l.map Prod.fst).Nodup) :
    ∀ q ∈ l, List.lookup q.1 l = some q.2 := by
  induction l with
  | nil => simp
  | cons p rest ih =>
    obtain ⟨k, v⟩ := p
    simp only [List.map_cons, List.nodup_cons] at hnd
    intro q hq
    rcases List.mem_cons.mp hq with h | h
    · subst h
      simp [List.lookup]
    · have hne : q.1 ≠ k := by
        intro he
        exact hnd.1 (he ▸ List.mem_map_of_mem Prod.fst h)
      have hb : (q.1 == k) = false := by simp [hne]
      simp only [List.lookup, hb]
      exact ih hnd.2 q h

theorem extract_mk_missing (now : Nat) (i : String) (n : Option String) :
    extractToolResultId (makeMissingToolResult now i n) =
      if i = "" then none else some i := by
  by_cases hi : i = ""
  · simp [extractToolResultId, makeMissingToolResult, hi]
  · simp [extractToolResultId, makeMissingToolResult, hi]

theorem extractToolCalls_ne_empty (c : List Block) :
    ∀ p ∈ extractToolCallsFromAssistant c, p.1 ≠ "" := by
  intro p hp
  simp only [extractToolCallsFromAssistant, List.mem_filterMap] at hp
  obtain ⟨b, _, hb⟩ := hp
  cases b with
  | text t => simp at hb
  | other t => simp at hb
  | tool k i n inp ar =>
    cases i with
    | none => simp at hb
    | some i0 =>
      by_cases hi : i0 = ""
      · simp [hi] at hb
      · simp only [hi, if_false] at hb
        obtain rfl := Option.some.injEq .. ▸ hb
        simpa using hi

theorem scanSpanGo_remainder_not_result (callIds seen : List String)
    (span : List Message) :
    ∀ acc, ∀ m ∈ (scanSpanGo callIds seen acc span).remainder,
      isToolResultRole m = false := by
  induction span with
  | nil => intro acc; simp [scanSpanGo]
  | cons x rest ih =>
    intro acc
    cases x with
    | toolResult r =>
      cases hex : extractToolResultId r with
      | some i =>
        by_cases hc : i ∈ callIds
        · by_cases hs : i ∈ seen
          · simp only [scanSpanGo, hex, hc, hs, if_true]
            exact ih acc
          · by_cases hl : (List.lookup i acc).isSome
            · simp only [scanSpanGo, hex, hc, hs, hl, if_true, if_false]
              exact ih acc
            · simp only [scanSpanGo, hex, hc, hs, hl, if_false]
              exact ih _
        · simp only [scanSpanGo, hex, hc, if_false]
          exact ih acc
      | none =>
        simp only [scanSpanGo, hex]
        exact ih acc
    | user u t =>
      simp only [scanSpanGo]
      intro m hm
      rcases List.mem_cons.mp hm with h | h
      · simp [h, isToolResultRole]
      · exact ih acc m h
    | assistant c0 stop0 =>
      simp only [scanSpanGo]
      intro m hm
      rcases List.mem_cons.mp hm with h | h
      · simp [h, isToolResultRole]
      · exact ih acc m h

theorem scanSpanGo_inv (callIds seen : List String) (span : List Message) :
    ∀ acc,
      (∀ q ∈ acc, extractToolResultId q.2 = some q.1 ∧ q.1 ∈ callIds ∧ q.1 ∉ seen) →
      ((acc.map Prod.fst).Nodup) →
      (∀ q ∈ (scanSpanGo callIds seen acc span).spanResults,
        extractToolResultId q.2 = some q.1 ∧ q.1 ∈ callIds ∧ q.1 ∉ seen) ∧
      (((scanSpanGo callIds seen acc span).spanResults.map Prod.fst).Nodup) := by
  induction span with
  | nil => intro acc h1 h2; exact ⟨h1, h2⟩
  | cons x rest ih =>
    intro acc h1 h2
    cases x with
    | toolResult r =>
      cases hex : extractToolResultId r with
      | some i =>
        by_cases hc : i ∈ callIds
        · by_cases hs : i ∈ seen
          · simp only [scanSpanGo, hex, hc, hs, if_true]
            exact ih acc h1 h2
          · by_cases hl : (List.lookup i acc).isSome
            · simp only [scanSpanGo, hex, hc, hs, hl, if_true, if_false]
              exact ih acc h1 h2
            · simp only [scanSpanGo, hex, hc, hs, hl, if_false]
              apply ih (acc ++ [(i, r)])
              · intro q hq
                rcases List.mem_append.mp hq with h | h
                · exact h1 q h
                · simp only [List.mem_singleton] at h
                  subst h
                  exact ⟨hex, hc, hs⟩
              · rw [List.map_append]
                apply List.Nodup.append h2 (by simp)
                intro a ha hb
                simp only [List.map_cons, List.map_nil, List.mem_singleton] at hb
                subst hb
                have hnone : List.lookup a acc = none := by
                  cases hx : List.lookup a acc with
                  | none => rfl
                  | some v => simp [hx] at hl
                exact lookup_none_not_mem a acc hnone ha
        · simp only [scanSpanGo, hex, hc, if_false]
          exact ih acc h1 h2
      | none =>
        simp only [scanSpanGo, hex]
        exact ih acc h1 h2
    | user u t =>
      simp only [scanSpanGo]
      exact ih acc h1 h2
    | assistant c0 stop0 =>
      simp only [scanSpanGo]
      exact ih acc h1 h2

theorem emitCalls_blockRes (now : Nat) (spanRes : List (String × ToolResultMsg))
    (hinv : ∀ q ∈ spanRes, extractToolResultId q.2 = some q.1) :
    ∀ (cs : List (String × Option String)) (seen : List String),
      (∀ p ∈ cs, p.1 ≠ "") →
      BlockRes seen cs (emitCalls now spanRes seen cs).msgs
        (emitCalls now spanRes seen cs).seen := by
  intro cs
  induction cs with
  | nil => intro seen _; exact BlockRes.nil seen
  | cons p cs ih =>
    obtain ⟨i, n⟩ := p
    intro seen hne
    have hi : i ≠ "" := hne (i, n) (by simp)
    have hrest : ∀ p ∈ cs, p.1 ≠ "" := fun p hp => hne p (by simp [hp])
    cases hlk : List.lookup i spanRes with
    | some r =>
      have hidr : extractToolResultId r = some i := hinv (i, r) (lookup_mem i spanRes r hlk)
      by_cases hmem : i ∈ seen
      · simp only [emitCalls, hlk, hidr, hmem, if_true]
        exact BlockRes.skip hmem (ih seen hrest)
      · simp only [emitCalls, hlk, hidr, hmem, if_false]
        exact BlockRes.emit hmem hidr (ih (i :: seen) hrest)
    | none =>
      have hidm : extractToolResultId (makeMissingToolResult now i n) = some i := by
        rw [extract_mk_missing]
        simp [hi]
      by_cases hmem : i ∈ seen
      · simp only [emitCalls, hlk, hidm, hmem, if_true]
        exact BlockRes.skip hmem (ih seen hrest)
      · simp only [emitCalls, hlk, hidm, hmem, if_false]
        exact BlockRes.emit hmem hidm (ih (i :: seen) hrest)

theorem canon_users_prepend (S S' : List String) :
    ∀ (l : List Message), (∀ m ∈ l, isUserRole m = true) →
    ∀ {rest : List Message}, Canon S rest S' → Canon S (l ++ rest) S' := by
  intro l
  induction l with
  | nil => intro _ rest h; exact h
  | cons m t ih =>
    intro hu rest h
    have hm := hu m (by simp)
    cases m with
    | user u ts =>
      exact Canon.user (ih (fun x hx => hu x (by simp [hx])) h)
    | assistant c s => simp [isUserRole] at hm
    | toolResult r => simp [isUserRole] at hm

theorem repairGo_canon (now : Nat) :
    ∀ (seen : List String) (ms : List Message),
      Canon seen (repairGo now seen ms).out (repairGo now seen ms).seen := by
  intro seen ms
  induction seen, ms using repairGo.induct now with
  | case1 seen => simpa [repairGo] using Canon.nil seen
  | case2 seen rest r ih =>
    simp only [repairGo]
    exact ih
  | case3 seen rest u t ih =>
    simp only [repairGo]
    exact Canon.user ih
  | case4 seen rest c0 stop0 hstop ih =>
    simp only [repairGo, hstop, if_true]
    exact Canon.skipAsst (Or.inl hstop) ih
  | case5 seen rest c0 stop0 hstop calls hcalls ih =>
    simp only [repairGo]
    rw [if_neg hstop, if_pos hcalls]
    refine Canon.skipAsst (Or.inr ?_) ih
    exact List.isEmpty_iff.mp hcalls
  | case6 seen rest c0 stop0 hstop calls hcalls span rest2 sc e ih =>
    simp only [repairGo]
    rw [if_neg hstop, if_neg hcalls]
    have hscinv := scanSpanGo_inv (calls.map Prod.fst) seen span [] (by simp) (by simp)
    have hbr := emitCalls_blockRes now sc.spanResults
      (fun q hq => (hscinv.1 q hq).1) calls seen
      (extractToolCalls_ne_empty c0)
    have husers : ∀ m ∈ sc.remainder, isUserRole m = true := by
      intro m hm
      have h1 := scanSpanGo_remainder_mem (calls.map Prod.fst) seen span [] m hm
      have h2 := scanSpanGo_remainder_not_result (calls.map Prod.fst) seen span [] m hm
      have h3 := List.mem_takeWhile_imp h1
      cases m with
      | user u t => simp [isUserRole]
      | assistant c s => simp [isAssistantRole] at h3
      | toolResult r => simp [isToolResultRole] at h2
    have hrest : Canon e.seen (sc.remainder ++ (repairGo now e.seen rest2).out)
        (repairGo now e.seen rest2).seen :=
      canon_users_prepend e.seen _ sc.remainder husers ih
    have hblock := @Canon.block seen _ _ c0 stop0 _ _
      (by simpa using hstop)
      (by
        intro hnil
        apply hcalls
        show (extractToolCallsFromAssistant c0).isEmpty = true
        simp [hnil])
      hbr hrest
    simpa [List.append_assoc] using hblock

theorem blockRes_shape {S S2 : List String} {cs : List (String × Option String)}
    {results : List Message} (h : BlockRes S cs results S2) :
    ∀ m ∈ results, ∃ r i2, m = Message.toolResult r ∧
      extractToolResultId r = some i2 := by
  induction h with
  | nil => simp
  | skip _ _ ih => exact ih
  | emit _ hid _ ih =>
    intro m hm
    rcases List.mem_cons.mp hm with h | h
    · exact ⟨_, _, h, hid⟩
    · exact ih m h

theorem blockRes_pairs {S S2 : List String} {cs : List (String × Option String)}
    {results : List Message} (h : BlockRes S cs results S2) :
    (∀ q ∈ resultPairs results, q.1 ∈ cs.map Prod.fst ∧ q.1 ∉ S) ∧
    ((resultPairs results).map Prod.fst).Nodup ∧
    (∀ q ∈ resultPairs results, extractToolResultId q.2 = some q.1) := by
  induction h with
  | nil => simp [resultPairs]
  | skip hmem hrec ih =>
    refine ⟨?_, ih.2.1, ih.2.2⟩
    intro q hq
    exact ⟨by simp [(ih.1 q hq).1], (ih.1 q hq).2⟩
  | emit hnot hid hrec ih =>
    rename_i S0 S0' i n cs0 ms0 r0
    have hpairs : resultPairs (Message.toolResult r0 :: ms0) =
        (i, r0) :: resultPairs ms0 := by
      rw [resultPairs, hid]
    rw [hpairs]
    refine ⟨?_, ?_, ?_⟩
    · intro q hq
      rcases List.mem_cons.mp hq with h | h
      · subst h
        exact ⟨by simp, hnot⟩
      · have := ih.1 q h
        exact ⟨by simp [this.1], fun hmem => this.2 (by simp [hmem])⟩
    · simp only [List.map_cons, List.nodup_cons]
      refine ⟨?_, ih.2.1⟩
      intro hmem
      rw [List.mem_map] at hmem
      obtain ⟨q, hq, hq1⟩ := hmem
      exact (ih.1 q hq).2 (by simp [hq1])
    · intro q hq
      rcases List.mem_cons.mp hq with h | h
      · subst h
        exact hid
      · exact ih.2.2 q h

theorem canon_split {S S' : List String} {l : List Message} (h : Canon S l S') :
    (∀ m ∈ l.takeWhile (fun x => !isAssistantRole x), isUserRole m = true) ∧
    Canon S (l.dropWhile (fun x => !isAssistantRole x)) S' ∧
    (l.dropWhile (fun x => !isAssistantRole x) = [] ∨
      ∃ c2 s2 t2, l.dropWhile (fun x => !isAssistantRole x) =
        Message.assistant c2 s2 :: t2) := by
  induction h with
  | nil => exact ⟨by simp, Canon.nil _, Or.inl (by simp)⟩
  | user hrec ih =>
    refine ⟨?_, ?_, ?_⟩
    · simp only [List.takeWhile_cons, isAssistantRole, Bool.not_false, if_true]
      intro m hm
      rcases List.mem_cons.mp hm with h | h
      · simp [h, isUserRole]
      · exact ih.1 m h
    · simp only [List.dropWhile_cons, isAssistantRole, Bool.not_false, if_true]
      exact ih.2.1
    · simp only [List.dropWhile_cons, isAssistantRole, Bool.not_false, if_true]
      exact ih.2.2
  | skipAsst hor hrec _ =>
    refine ⟨by simp [List.takeWhile_cons, isAssistantRole], ?_, ?_⟩
    · simp only [List.dropWhile_cons, isAssistantRole, Bool.not_true, if_false]
      exact Canon.skipAsst hor hrec
    · simp only [List.dropWhile_cons, isAssistantRole, Bool.not_true, if_false]
      exact Or.inr ⟨_, _, _, rfl⟩
  | block herr hne hbr hrec _ =>
    refine ⟨by simp [List.takeWhile_cons, isAssistantRole], ?_, ?_⟩
    · simp only [List.dropWhile_cons, isAssistantRole, Bool.not_true, if_false]
      exact Canon.block herr hne hbr hrec
    · simp only [List.dropWhile_cons, isAssistantRole, Bool.not_true, if_false]
      exact Or.inr ⟨_, _, _, rfl⟩

theorem takeWhile_append_left {α : Type} (p : α → Bool) (l1 l2 : List α)
    (h : ∀ m ∈ l1, p m = true) :
    (l1 ++ l2).takeWhile p = l1 ++ l2.takeWhile p ∧
    (l1 ++ l2).dropWhile p = l2.dropWhile p := by
  induction l1 with
  | nil => simp
  | cons x t ih =>
    have hx := h x (by simp)
    have iht := ih fun m hm => h m (by simp [hm])
    constructor
    · simp only [List.cons_append, List.takeWhile_cons, hx, if_true]
      simp [iht.1]
    · simp only [List.cons_append, List.dropWhile_cons, hx, if_true]
      simp [iht.2]

theorem scanSpanGo_users (callIds S : List String) :
    ∀ (users : List Message) (acc : List (String × ToolResultMsg)),
      (∀ m ∈ users, isUserRole m = true) →
      scanSpanGo callIds S acc users = ⟨acc, users, 0, 0, false⟩ := by
  intro users
  induction users with
  | nil => intro acc _; simp [scanSpanGo]
  | cons m t ih =>
    intro acc hu
    have hm := hu m (by simp)
    cases m with
    | user u ts =>
      simp only [scanSpanGo]
      rw [ih acc fun x hx => hu x (by simp [hx])]
    | assistant c s => simp [isUserRole] at hm
    | toolResult r => simp [isUserRole] at hm

theorem scanSpanGo_strict_users (callIds S : List String) (users : List Message)
    (husers : ∀ m ∈ users, isUserRole m = true) :
    ∀ (results : List Message) (acc : List (String × ToolResultMsg)),
      (∀ m ∈ results, ∃ r i2, m = Message.toolResult r ∧
        extractToolResultId r = some i2) →
      (∀ q ∈ resultPairs results, q.1 ∈ callIds ∧ q.1 ∉ S) →
      ((resultPairs results).map Prod.fst).Nodup →
      (∀ q ∈ resultPairs results, List.lookup q.1 acc = none) →
      scanSpanGo callIds S acc (results ++ users) =
        ⟨acc ++ resultPairs results, users, 0, 0, false⟩ := by
  intro results
  induction results with
  | nil =>
    intro acc _ _ _ _
    simp only [List.nil_append]
    rw [scanSpanGo_users callIds S users acc husers]
    simp [resultPairs]
  | cons m rest ih =>
    intro acc hshape hq hnd hacc
    obtain ⟨r, i2, hm, hid⟩ := hshape m (by simp)
    subst hm
    have hpairs : resultPairs (Message.toolResult r :: rest) =
        (i2, r) :: resultPairs rest := by
      simp [resultPairs, hid]
    have hqh := hq (i2, r) (by rw [hpairs]; simp)
    have hlk : List.lookup i2 acc = none := hacc (i2, r) (by rw [hpairs]; simp)
    rw [hpairs] at hq hnd hacc
    simp only [List.map_cons, List.nodup_cons] at hnd
    have step : scanSpanGo callIds S acc ((Message.toolResult r :: rest) ++ users) =
        scanSpanGo callIds S (acc ++ [(i2, r)]) (rest ++ users) := by
      rw [List.cons_append]
      simp [scanSpanGo, hid, hqh.1, hqh.2, hlk]
    rw [step]
    rw [ih (acc ++ [(i2, r)])
      (fun m hm => hshape m (by simp [hm]))
      (fun q hqq => hq q (by simp [hqq]))
      hnd.2
      (fun q hqq => by
        have hne : q.1 ≠ i2 := by
          intro he
          apply hnd.1
          rw [← he]
          exact List.mem_map_of_mem Prod.fst hqq
        rw [lookup_append_none _ _ _ (hacc q (by simp [hqq]))]
        have hb : (q.1 == i2) = false := by simp [hne]
        simp [List.lookup, hb])]
    simp [hpairs]

theorem emitCalls_canon (now : Nat) (spanRes : List (String × ToolResultMsg))
    (hinv : ∀ q ∈ spanRes, extractToolResultId q.2 = some q.1) :
    ∀ {cs : List (String × Option String)} {S : List String}
      {results : List Message} {S2 : List String},
      BlockRes S cs results S2 →
      (∀ p ∈ cs, p.1 ≠ "") →
      (∀ q ∈ resultPairs results, List.lookup q.1 spanRes = some q.2) →
      (emitCalls now spanRes S cs).msgs = results ∧
      (emitCalls now spanRes S cs).seen = S2 := by
  intro cs S results S2 hbr
  induction hbr with
  | nil => intro _ _; simp [emitCalls]
  | skip hmem hrec ih =>
    rename_i S0 S0' i n cs0 ms0
    intro hne hlk
    have hi : i ≠ "" := hne (i, n) (by simp)
    have hrest := ih (fun p hp => hne p (by simp [hp])) hlk
    cases hcase : List.lookup i spanRes with
    | some r =>
      have hidr : extractToolResultId r = some i :=
        hinv (i, r) (lookup_mem i spanRes r hcase)
      simp only [emitCalls, hcase, hidr, hmem, if_true]
      exact hrest
    | none =>
      have hidm : extractToolResultId (makeMissingToolResult now i n) = some i := by
        rw [extract_mk_missing]
        simp [hi]
      simp only [emitCalls, hcase, hidm, hmem, if_true]
      exact hrest
  | emit hnot hid hrec ih =>
    rename_i S0 S0' i n cs0 ms0 r
    intro hne hlk
    have hpairs : resultPairs (Message.toolResult r :: ms0) =
        (i, r) :: resultPairs ms0 := by
      rw [resultPairs, hid]
    rw [hpairs] at hlk
    have hlkr : List.lookup i spanRes = some r := hlk (i, r) (by simp)
    have hrest := ih (fun p hp => hne p (by simp [hp])) fun q hq => hlk q (by simp [hq])
    simp only [emitCalls, hlkr, hid, hnot, if_false]
    exact ⟨by simp [hrest.1], by simp [hrest.2]⟩

theorem repairGo_canon_eval (now : Nat) :
    ∀ (n : Nat) (ms : List Message) (S S' : List String), ms.length ≤ n →
      Canon S ms S' →
      (repairGo now S ms).out = ms ∧ (repairGo now S ms).seen = S' := by
  intro n
  induction n with
  | zero =>
    intro ms S S' hlen hc
    have hnil : ms = [] := List.length_eq_zero.mp (Nat.le_zero.mp hlen)
    subst hnil
    cases hc
    simp [repairGo]
  | succ n ih =>
    intro ms S S' hlen hc
    cases hc with
    | nil => simp [repairGo]
    | user hrest =>
      rename_i u t rest
      have hlen2 : rest.length ≤ n := by
        simp only [List.length_cons] at hlen
        omega
      have := ih rest S S' hlen2 hrest
      simp only [repairGo]
      exact ⟨by simp [this.1], by simp [this.2]⟩
    | skipAsst hor hrest =>
      rename_i c stop rest
      have hlen2 : rest.length ≤ n := by
        simp only [List.length_cons] at hlen
        omega
      have hrec := ih rest S S' hlen2 hrest
      by_cases herr : errorStop stop
      · simp only [repairGo, herr, if_true]
        exact ⟨by simp [hrec.1], by simp [hrec.2]⟩
      · have hcalls : extractToolCallsFromAssistant c = [] := by
          rcases hor with h | h
          · exact absurd h herr
          · exact h
        simp only [repairGo]
        rw [if_neg herr, if_pos (by simp [hcalls])]
        exact ⟨by simp [hrec.1], by simp [hrec.2]⟩
    | block herr hne hbr hrest =>
      rename_i S2 c stop results rest
      have hshape := blockRes_shape hbr
      have hpf := blockRes_pairs hbr
      have hresrole : ∀ m ∈ results, (fun x => !isAssistantRole x) m = true := by
        intro m hm
        obtain ⟨r, i2, hmeq, _⟩ := hshape m hm
        simp [hmeq, isAssistantRole]
      have hsplitc := canon_split hrest
      have htw := takeWhile_append_left (fun x => !isAssistantRole x) results rest hresrole
      have hlen2 : (rest.dropWhile (fun x => !isAssistantRole x)).length ≤ n := by
        have h1 := (@List.dropWhile_suffix Message rest
          (fun x => !isAssistantRole x)).length_le
        simp only [List.length_cons, List.length_append] at hlen
        omega
      have hrec := ih (rest.dropWhile fun x => !isAssistantRole x) S2 S' hlen2 hsplitc.2.1
      have hscan := scanSpanGo_strict_users
        ((extractToolCallsFromAssistant c).map Prod.fst) S
        (rest.takeWhile fun x => !isAssistantRole x) hsplitc.1
        results []
        hshape
        (fun q hq => (hpf.1 q hq))
        hpf.2.1
        (fun q _ => by simp)
      have hemit := emitCalls_canon now (resultPairs results) hpf.2.2
        hbr (extractToolCalls_ne_empty c)
        (lookup_self_of_nodup (resultPairs results) hpf.2.1)
      simp only [repairGo]
      rw [if_neg (by simp [herr]), if_neg (by
        simp only [List.isEmpty_iff]
        exact hne)]
      rw [htw.1, htw.2, hscan]
      simp only [List.nil_append]
      rw [hemit.1, hemit.2, hrec.1, hrec.2]
      constructor
      · rw [List.append_assoc, List.takeWhile_append_dropWhile]
      · rfl

theorem emitCalls_now_indep (now now2 : Nat)
    (spanRes : List (String × ToolResultMsg)) :
    ∀ (cs : List (String × Option String)) (seen : List String),
      (emitCalls now spanRes seen cs).changed = (emitCalls now2 spanRes seen cs).changed ∧
      (emitCalls now spanRes seen cs).seen = (emitCalls now2 spanRes seen cs).seen := by
  intro cs
  induction cs with
  | nil => intro seen; simp [emitCalls]
  | cons p cs ih =>
    obtain ⟨i, n⟩ := p
    intro seen
    cases hlk : List.lookup i spanRes with
    | some r =>
      cases hex : extractToolResultId r with
      | some i2 =>
        by_cases hmem : i2 ∈ seen
        · simp only [emitCalls, hlk, hex, hmem, if_true]
          simp [ (ih seen).2]
        · simp only [emitCalls, hlk, hex, hmem, if_false]
          exact ⟨by simp [(ih (i2 :: seen)).1], (ih (i2 :: seen)).2⟩
      | none =>
        simp only [emitCalls, hlk, hex]
        exact ⟨by simp [(ih seen).1], (ih seen).2⟩
    | none =>
      have hkey : extractToolResultId (makeMissingToolResult now i n) =
          extractToolResultId (makeMissingToolResult now2 i n) := by
        rw [extract_mk_missing, extract_mk_missing]
      cases hex : extractToolResultId (makeMissingToolResult now i n) with
      | some i2 =>
        by_cases hmem : i2 ∈ seen
        · simp only [emitCalls, hlk, hex, ← hkey, hmem, if_true]
          simp [(ih seen).2]
        · simp only [emitCalls, hlk, hex, ← hkey, hmem, if_false]
          exact ⟨by simp [(ih (i2 :: seen)).1], (ih (i2 :: seen)).2⟩
      | none =>
        simp only [emitCalls, hlk, hex, ← hkey]
        exact ⟨by simp [(ih seen).1], (ih seen).2⟩

theorem repairGo_flags_now (now now2 : Nat) :
    ∀ (seen : List String) (ms : List Message),
      (repairGo now seen ms).changed = (repairGo now2 seen ms).changed ∧
      (repairGo now seen ms).movedF = (repairGo now2 seen ms).movedF := by
  intro seen ms
  induction seen, ms using repairGo.induct now with
  | case1 seen => simp [repairGo]
  | case2 seen rest r ih =>
    simp only [repairGo]
    exact ⟨by simp, ih.2⟩
  | case3 seen rest u t ih =>
    simp only [repairGo]
    exact ih
  | case4 seen rest c0 stop0 hstop ih =>
    simp only [repairGo, hstop, if_true]
    exact ih
  | case5 seen rest c0 stop0 hstop calls hcalls ih =>
    simp only [repairGo]
    rw [if_neg hstop, if_pos hcalls, if_neg hstop, if_pos hcalls]
    exact ih
  | case6 seen rest c0 stop0 hstop calls hcalls span rest2 sc e ih =>
    have hind := emitCalls_now_indep now now2 sc.spanResults calls seen
    simp only [repairGo]
    rw [if_neg hstop, if_neg hcalls, if_neg hstop, if_neg hcalls]
    rw [← hind.2] at *
    constructor
    · simp [hind.1, ih.1]
    · simp [ih.2]

/-- C7: applying the pairing repairer twice yields the same message sequence
as applying it once (for any synthetic-result timestamps of the two runs);
likewise the textifier and the sanitizer are idempotent. -/
theorem claim_C7_idempotence :
    (∀ (now now2 : Nat) (ms : List Message),
      (repairToolUseResultPairing now2
        (repairToolUseResultPairing now ms).messages).messages =
      (repairToolUseResultPairing now ms).messages) ∧
    (∀ ms : List Message,
      textifyToolCallRounds (textifyToolCallRounds ms) = textifyToolCallRounds ms) ∧
    (∀ ms : List Message,
      sanitizeToolCallInputs (sanitizeToolCallInputs ms) = sanitizeToolCallInputs ms) := by
  refine ⟨?_, textify_idem, sanitize_idem⟩
  intro now now2 ms
  by_cases hch : ((repairGo now [] ms).changed || (repairGo now [] ms).movedF)
  · have hmsg : (repairToolUseResultPairing now ms).messages = (repairGo now [] ms).out := by
      simp [repairToolUseResultPairing, hch]
    rw [hmsg]
    have hcanon := repairGo_canon now [] ms
    have heval := repairGo_canon_eval now2 (repairGo now [] ms).out.length
      (repairGo now [] ms).out [] (repairGo now [] ms).seen (Nat.le_refl _) hcanon
    simp only [repairToolUseResultPairing]
    by_cases hch2 : ((repairGo now2 [] (repairGo now [] ms).out).changed ||
        (repairGo now2 [] (repairGo now [] ms).out).movedF)
    · simp [hch2, heval.1]
    · simp [hch2]
  · have hmsg : (repairToolUseResultPairing now ms).messages = ms := by
      simp [repairToolUseResultPairing, hch]
    rw [hmsg]
    have hflags := repairGo_flags_now now now2 [] ms
    have hch2 : ¬ ((repairGo now2 [] ms).changed || (repairGo now2 [] ms).movedF) := by
      rw [← hflags.1, ← hflags.2]
      exact hch
    simp [repairToolUseResultPairing, hch2]

/-- C9 (counterexample): a tool-result located before its owning assistant
message is emitted unchanged in its original position and additionally
converted into a user message after the assistant turn, so its content
appears twice. -/
theorem claim_C9_counterexample :
    textifyToolCallRounds [exMsgX, exAsstX] =
      [exMsgX,
       .assistant [Block.text "[Called tool t(1)]"] none,
       .user (Sum.inl "[Tool t result: hello]") 5] ∧
    msgResultId exMsgX = some "x" := by
  decide

theorem lookup_append_some {β : Type} (a : String) (l1 l2 : List (String × β))
    (b : β) (h : List.lookup a l1 = some b) :
    List.lookup a (l1 ++ l2) = some b := by
  induction l1 with
  | nil => simp at h
  | cons p rest ih =>
    obtain ⟨k, v⟩ := p
    by_cases hk : a == k
    · simp only [List.lookup, hk] at h ⊢
      exact h
    · simp only [List.lookup, hk] at h ⊢
      exact ih h

theorem buildIdx_mono (x : String) :
    ∀ (ms : List Message) (acc : List (String × ToolResultMsg)),
      (List.lookup x acc).isSome = true →
      (List.lookup x (buildIdxGo acc ms)).isSome = true := by
  intro ms
  induction ms with
  | nil => intro acc h; simpa [buildIdxGo] using h
  | cons m rest ih =>
    intro acc h
    cases m with
    | user u t => simpa [buildIdxGo] using ih acc h
    | assistant c s => simpa [buildIdxGo] using ih acc h
    | toolResult r =>
      cases hex : extractToolResultId r with
      | some i =>
        by_cases hl : (List.lookup i acc).isSome
        · simp only [buildIdxGo, hex, hl, if_true]
          exact ih acc h
        · simp only [buildIdxGo, hex, hl, if_false]
          apply ih
          cases hx : List.lookup x acc with
          | none => simp [hx] at h
          | some v => simp [lookup_append_some x acc [(i, r)] v hx]
      | none =>
        simp only [buildIdxGo, hex]
        exact ih acc h

theorem buildIdx_has (x : String) :
    ∀ (ms : List Message) (acc : List (String × ToolResultMsg)),
      (∃ m ∈ ms, msgResultId m = some x) →
      (List.lookup x (buildIdxGo acc ms)).isSome = true := by
  intro ms
  induction ms with
  | nil => intro acc h; simp at h
  | cons m rest ih =>
    intro acc h
    obtain ⟨m0, hm0, hid0⟩ := h
    rcases List.mem_cons.mp hm0 with he | he
    · subst he
      cases m0 with
      | user u t => simp [msgResultId] at hid0
      | assistant c s => simp [msgResultId] at hid0
      | toolResult r =>
        have hex : extractToolResultId r = some x := hid0
        by_cases hl : (List.lookup x acc).isSome
        · simp only [buildIdxGo, hex, hl, if_true]
          exact buildIdx_mono x rest acc hl
        · simp only [buildIdxGo, hex, hl, if_false]
          apply buildIdx_mono
          cases hx : List.lookup x acc with
          | some v => simp [hx] at hl
          | none =>
            rw [lookup_append_none x acc [(x, r)] hx]
            simp [List.lookup]
    · cases m with
      | user u t =>
        simp only [buildIdxGo]
        exact ih acc ⟨m0, he, hid0⟩
      | assistant c s =>
        simp only [buildIdxGo]
        exact ih acc ⟨m0, he, hid0⟩
      | toolResult r =>
        cases hex : extractToolResultId r with
        | some i =>
          by_cases hl : (List.lookup i acc).isSome
          · simp only [buildIdxGo, hex, hl, if_true]
            exact ih acc ⟨m0, he, hid0⟩
          · simp only [buildIdxGo, hex, hl, if_false]
            exact ih _ ⟨m0, he, hid0⟩
        | none =>
          simp only [buildIdxGo, hex]
          exact ih acc ⟨m0, he, hid0⟩

theorem buildRound_consumed_mono (idx : List (String × ToolResultMsg)) :
    ∀ (tcs : List Block) (consumed : List String) (x : String),
      x ∈ consumed → x ∈ (buildRound idx consumed tcs).2.2 := by
  intro tcs
  induction tcs with
  | nil => intro consumed x h; simpa [buildRound] using h
  | cons b bs ih =>
    intro consumed x h
    cases b with
    | text t => simpa [buildRound] using ih consumed x h
    | other t => simpa [buildRound] using ih consumed x h
    | tool k i n inp ar =>
      cases i with
      | none => simpa [buildRound] using ih consumed x h
      | some i0 =>
        cases hlk : List.lookup i0 idx with
        | some r =>
          simp only [buildRound, hlk]
          exact ih (i0 :: consumed) x (by simp [h])
        | none =>
          simp only [buildRound, hlk]
          exact ih consumed x h

theorem buildRound_consumes (idx : List (String × ToolResultMsg)) (x : String)
    (hidx : (List.lookup x idx).isSome = true) :
    ∀ (tcs : List Block) (consumed : List String),
      (∃ b ∈ tcs, isToolCallBlock b = true ∧ blockId b = some x) →
      x ∈ (buildRound idx consumed tcs).2.2 := by
  intro tcs
  induction tcs with
  | nil => intro consumed h; simp at h
  | cons b bs ih =>
    intro consumed h
    obtain ⟨b0, hb0, htc, hbid⟩ := h
    rcases List.mem_cons.mp hb0 with he | he
    · subst he
      cases b0 with
      | text t => simp [isToolCallBlock] at htc
      | other t => simp [isToolCallBlock] at htc
      | tool k i n inp ar =>
        have hi : i = some x := hbid
        subst hi
        cases hlk : List.lookup x idx with
        | none => simp [hlk] at hidx
        | some r =>
          simp only [buildRound, hlk]
          exact buildRound_consumed_mono idx bs (x :: consumed) x (by simp)
    · cases b with
      | text t =>
        simp only [buildRound]
        exact ih consumed ⟨b0, he, htc, hbid⟩
      | other t =>
        simp only [buildRound]
        exact ih consumed ⟨b0, he, htc, hbid⟩
      | tool k i n inp ar =>
        cases i with
        | none =>
          simp only [buildRound]
          exact ih consumed ⟨b0, he, htc, hbid⟩
        | some i0 =>
          cases hlk : List.lookup i0 idx with
          | some r =>
            simp only [buildRound, hlk]
            exact ih (i0 :: consumed) ⟨b0, he, htc, hbid⟩
          | none =>
            simp only [buildRound, hlk]
            exact ih consumed ⟨b0, he, htc, hbid⟩

theorem textifyGo_consumed_mono (idx : List (String × ToolResultMsg)) (x : String) :
    ∀ (ms : List Message) (consumed : List String),
      x ∈ consumed → x ∈ (textifyGo idx consumed ms).2.1 := by
  intro ms
  induction ms with
  | nil => intro consumed h; simpa [textifyGo] using h
  | cons m rest ih =>
    intro consumed h
    cases m with
    | user u t => simpa [textifyGo] using ih consumed h
    | toolResult r =>
      cases hex : extractToolResultId r with
      | some i =>
        by_cases hc : i ∈ consumed
        · simp only [textifyGo, hex, hc, if_true]
          exact ih consumed h
        · simp only [textifyGo, hex, hc, if_false]
          exact ih consumed h
      | none =>
        simp only [textifyGo, hex]
        exact ih consumed h
    | assistant c stop =>
      by_cases htcs : (c.filter isTextifiableToolCall).isEmpty
      · simp only [textifyGo, htcs, if_true]
        exact ih consumed h
      · simp only [textifyGo, htcs, if_false]
        exact ih _ (buildRound_consumed_mono idx _ consumed x h)

theorem textifyGo_skip_consumed (idx : List (String × ToolResultMsg)) (x : String) :
    ∀ (ms : List Message) (consumed : List String),
      x ∈ consumed →
      ∀ m ∈ (textifyGo idx consumed ms).1, msgResultId m ≠ some x := by
  intro ms
  induction ms with
  | nil => intro consumed _; simp [textifyGo]
  | cons m rest ih =>
    intro consumed h
    cases m with
    | user u t =>
      simp only [textifyGo]
      intro m hm
      rcases List.mem_cons.mp hm with he | he
      · simp [he, msgResultId]
      · exact ih consumed h m he
    | toolResult r =>
      cases hex : extractToolResultId r with
      | some i =>
        by_cases hc : i ∈ consumed
        · simp only [textifyGo, hex, hc, if_true]
          exact ih consumed h
        · simp only [textifyGo, hex, hc, if_false]
          intro m hm
          rcases List.mem_cons.mp hm with he | he
          · subst he
            simp only [msgResultId, hex]
            intro hcon
            obtain rfl := Option.some.injEq .. ▸ hcon
            exact hc h
          · exact ih consumed h m he
      | none =>
        simp only [textifyGo, hex]
        intro m hm
        rcases List.mem_cons.mp hm with he | he
        · simp [he, msgResultId, hex]
        · exact ih consumed h m he
    | assistant c stop =>
      by_cases htcs : (c.filter isTextifiableToolCall).isEmpty
      · simp only [textifyGo, htcs, if_true]
        intro m hm
        rcases List.mem_cons.mp hm with he | he
        · simp [he, msgResultId]
        · exact ih consumed h m he
      · simp only [textifyGo, htcs, if_false]
        intro m hm
        rcases List.mem_cons.mp hm with he | he
        · simp [he, msgResultId]
        · rcases List.mem_append.mp he with ha | ha
          · have := buildRound_results_user idx _ consumed m ha
            cases m with
            | user u2 t2 => simp [msgResultId]
            | assistant c2 s2 => simp [isUserRole] at this
            | toolResult r2 => simp [isUserRole] at this
          · exact ih _ (buildRound_consumed_mono idx _ consumed x h) m ha

theorem textifyGo_out_from_input (idx : List (String × ToolResultMsg)) (x : String) :
    ∀ (ms : List Message) (consumed : List String),
      ∀ m ∈ (textifyGo idx consumed ms).1, msgResultId m = some x → m ∈ ms := by
  intro ms
  induction ms with
  | nil => intro consumed; simp [textifyGo]
  | cons m rest ih =>
    intro consumed m0 hm0 hid0
    cases m with
    | user u t =>
      simp only [textifyGo] at hm0
      rcases List.mem_cons.mp hm0 with he | he
      · subst he; simp [msgResultId] at hid0
      · exact List.mem_cons_of_mem _ (ih consumed m0 he hid0)
    | toolResult r =>
      cases hex : extractToolResultId r with
      | some i =>
        by_cases hc : i ∈ consumed
        · rw [textifyGo] at hm0
          simp only [hex, hc, if_true] at hm0
          exact List.mem_cons_of_mem _ (ih consumed m0 hm0 hid0)
        · rw [textifyGo] at hm0
          simp only [hex, hc, if_false] at hm0
          rcases List.mem_cons.mp hm0 with he | he
          · simp [he]
          · exact List.mem_cons_of_mem _ (ih consumed m0 he hid0)
      | none =>
        rw [textifyGo] at hm0
        simp only [hex] at hm0
        rcases List.mem_cons.mp hm0 with he | he
        · simp [he]
        · exact List.mem_cons_of_mem _ (ih consumed m0 he hid0)
    | assistant c stop =>
      by_cases htcs : (c.filter isTextifiableToolCall).isEmpty
      · rw [textifyGo] at hm0
        simp only [htcs, if_true] at hm0
        rcases List.mem_cons.mp hm0 with he | he
        · simp [he]
        · exact List.mem_cons_of_mem _ (ih consumed m0 he hid0)
      · rw [textifyGo] at hm0
        simp only [htcs, if_false] at hm0
        rcases List.mem_cons.mp hm0 with he | he
        · subst he; simp [msgResultId] at hid0
        · rcases List.mem_append.mp he with ha | ha
          · have := buildRound_results_user idx _ consumed m0 ha
            cases m0 with
            | user u2 t2 => simp [msgResultId] at hid0
            | assistant c2 s2 => simp [isUserRole] at this
            | toolResult r2 => simp [isUserRole] at this
          · exact List.mem_cons_of_mem _ (ih _ m0 ha hid0)

theorem textifyGo_append (idx : List (String × ToolResultMsg)) :
    ∀ (l1 l2 : List Message) (consumed : List String),
      (textifyGo idx consumed (l1 ++ l2)).1 =
        (textifyGo idx consumed l1).1 ++
        (textifyGo idx (textifyGo idx consumed l1).2.1 l2).1 := by
  intro l1
  induction l1 with
  | nil => intro l2 consumed; simp [textifyGo]
  | cons m rest ih =>
    intro l2 consumed
    cases m with
    | user u t =>
      simp only [List.cons_append, List.append_eq, textifyGo]
      rw [ih l2 consumed]
    | toolResult r =>
      cases hex : extractToolResultId r with
      | some i =>
        by_cases hc : i ∈ consumed
        · simp only [List.cons_append, List.append_eq, textifyGo, hex, hc, if_true]
          rw [ih l2 consumed]
        · simp only [List.cons_append, List.append_eq, textifyGo, hex, hc, if_false]
          rw [ih l2 consumed]
      | none =>
        simp only [List.cons_append, List.append_eq, textifyGo, hex]
        rw [ih l2 consumed]
    | assistant c stop =>
      by_cases htcs : (c.filter isTextifiableToolCall).isEmpty
      · simp only [List.cons_append, List.append_eq, textifyGo, htcs, if_true]
        rw [ih l2 consumed]
      · simp only [List.cons_append, List.append_eq, textifyGo, htcs, if_false]
        rw [ih l2 ((buildRound idx consumed (List.filter isTextifiableToolCall c)).2.2)]
        simp [List.append_assoc]

theorem textifyGo_changed_of_asst (idx : List (String × ToolResultMsg)) :
    ∀ (ms : List Message) (consumed : List String),
      (∃ c stop, Message.assistant c stop ∈ ms ∧
        ¬(c.filter isTextifiableToolCall).isEmpty = true) →
      (textifyGo idx consumed ms).2.2 = true := by
  intro ms
  induction ms with
  | nil => intro consumed h; simp at h
  | cons m rest ih =>
    intro consumed h
    obtain ⟨c, stop, hmem, hne⟩ := h
    rcases List.mem_cons.mp hmem with he | he
    · subst he
      simp [textifyGo, hne]
    · cases m with
      | user u t =>
        simp only [textifyGo]
        exact ih consumed ⟨c, stop, he, hne⟩
      | toolResult r =>
        cases hex : extractToolResultId r with
        | some i =>
          by_cases hc : i ∈ consumed
          · simp [textifyGo, hex, hc]
          · simp only [textifyGo, hex, hc, if_false]
            exact ih consumed ⟨c, stop, he, hne⟩
        | none =>
          simp only [textifyGo, hex]
          exact ih consumed ⟨c, stop, he, hne⟩
      | assistant c2 s2 =>
        by_cases htcs : (c2.filter isTextifiableToolCall).isEmpty
        · simp only [textifyGo, htcs, if_true]
          exact ih consumed ⟨c, stop, he, hne⟩
        · simp [textifyGo, htcs]

/-- C9 (amended): a tool-result whose correlation id is consumed by the
textifier does not appear in its original position provided every tool-result
with that id is located after the owning assistant message; a tool-result
located before its owning assistant message is not skipped (see the
counterexample), so the original claim's "regardless of where" is too strong. -/
theorem claim_C9_amended (ms : List Message) (x : String)
    (pre post : List Message) (c : List Block) (stop : Option String)
    (hsplit : ms = pre ++ Message.assistant c stop :: post)
    (hblock : ∃ b ∈ c, isToolCallBlock b = true ∧ blockId b = some x)
    (hres : ∃ m ∈ ms, msgResultId m = some x)
    (hpre : ∀ m ∈ pre, msgResultId m ≠ some x) :
    ∀ m ∈ textifyToolCallRounds ms, msgResultId m ≠ some x := by
  subst hsplit
  obtain ⟨b, hbmem, hbtc, hbid⟩ := hblock
  have hbtx : isTextifiableToolCall b = true := by
    simp [isTextifiableToolCall, hbtc, hbid]
  have hbfil : b ∈ c.filter isTextifiableToolCall := List.mem_filter.mpr ⟨hbmem, hbtx⟩
  have htcsne : ¬(c.filter isTextifiableToolCall).isEmpty = true := by
    simp only [List.isEmpty_iff]
    intro hnil
    rw [hnil] at hbfil
    simp at hbfil
  have hidx : (List.lookup x
      (buildIdxGo [] (pre ++ Message.assistant c stop :: post))).isSome = true :=
    buildIdx_has x _ [] hres
  have hch : (textifyGo (buildIdxGo [] (pre ++ Message.assistant c stop :: post)) []
      (pre ++ Message.assistant c stop :: post)).2.2 = true :=
    textifyGo_changed_of_asst _ _ []
      ⟨c, stop, by simp, htcsne⟩
  have hout : textifyToolCallRounds (pre ++ Message.assistant c stop :: post) =
      (textifyGo (buildIdxGo [] (pre ++ Message.assistant c stop :: post)) []
        (pre ++ Message.assistant c stop :: post)).1 := by
    rw [textify_unfold, hch]
    simp
  rw [hout]
  rw [textifyGo_append]
  intro m hm hid
  rcases List.mem_append.mp hm with ha | ha
  · exact hpre m (textifyGo_out_from_input _ x pre [] m ha hid) hid
  · rw [textifyGo] at ha
    simp only [htcsne, if_false] at ha
    rcases List.mem_cons.mp ha with he | he
    · subst he
      simp [msgResultId] at hid
    · rcases List.mem_append.mp he with hb2 | hb2
      · have := buildRound_results_user _ _ _ m hb2
        cases m with
        | user u2 t2 => simp [msgResultId] at hid
        | assistant c2 s2 => simp [isUserRole] at this
        | toolResult r2 => simp [isUserRole] at this
      · have hcons : x ∈ (buildRound
            (buildIdxGo [] (pre ++ Message.assistant c stop :: post))
            (textifyGo (buildIdxGo [] (pre ++ Message.assistant c stop :: post)) [] pre).2.1
            (c.filter isTextifiableToolCall)).2.2 :=
          buildRound_consumes _ x hidx _ _ ⟨b, hbfil, hbtc, hbid⟩
        exact textifyGo_skip_consumed _ x post _ hcons m hb2 hid

/-- Witness for C9 (amended): in `[assistant invoking x, result x]` the
converted user message (and every other output message) does not carry the
tool-result correlation id `x`. -/
theorem claim_C9_amended_witness :
    msgResultId (Message.user (Sum.inl "[Tool t result: hello]") 5) ≠ some "x" := by
  have hmem : (Message.user (Sum.inl "[Tool t result: hello]") 5) ∈
      textifyToolCallRounds [exAsstX, exMsgX] := by decide
  exact claim_C9_amended [exAsstX, exMsgX] "x" [] [exMsgX]
    [Block.tool .toolCall (some "x") (some "t") (some "1") none] none
    rfl
    ⟨Block.tool .toolCall (some "x") (some "t") (some "1") none, by decide, by decide, by decide⟩
    ⟨exMsgX, by decide, by decide⟩
    (by simp)
    _ hmem
